import Mathlib

/-!
Verification development for the sampling-oriented LSM storage engine
(`src/include/lsm/*.h`).  Shallow embedding: records, the memtable, the
in-memory run format with its ISAM directory, memory levels, the LSM
controller's compaction cascade, and the range-sampling loop are translated
into executable Lean definitions; theorems settle the spec's claims.

Modelling conventions, stated once here:
* `key_type` / `value_type` are fixed-width totally ordered integers in the
  source (`util/record.h`, not under `src/`); they are modelled as `Nat`.
* Machine arithmetic: `size_t` wrap-around is written explicitly with
  `% 2^64` at the places where the source can underflow or overflow.
* The bloom filter (`ds/BloomFilter.h`, not under `src/`) is modelled as the
  exact set of inserted keys.  The spec's contract forbids false negatives;
  every use in the source re-checks a positive lookup with an exact scan,
  so the exact-set model yields the same results as any superset filter.
* Uninitialised C++ memory (fresh buffers, out-of-bounds reads that the
  source performs) is modelled as the all-zero record `defaultRecord`.
-/

namespace LsmModel

/--
Record model.  `util/record.h` is not under `src/`.
Modelled from the spec: a record is `{key, value, header}` where the header
encodes the tombstone bit (bit 0), the logical-delete bit of the tagged-delete
variant (bit 1) and, in the memtable, the insertion slot (bits 2+, cf. the
`(pos << 2) | is_tombstone` layout visible in `MemTableBTree.h`); record
equality is on `(key, value)`.
-/
structure record_t where
  key : Nat
  value : Nat
  header : Nat
deriving DecidableEq, Repr

/-- Tombstone bit of the header (bit 0). -/
def record_t.is_tombstone (r : record_t) : Bool := r.header % 2 == 1

/-- Logical-delete bit of the header (bit 1), tagged-delete variant. -/
def record_t.get_delete_status (r : record_t) : Bool := r.header / 2 % 2 == 1

/-- Set the logical-delete bit in place (`InMemRun::delete_record`). -/
def record_t.set_delete_status (r : record_t) : record_t :=
  { r with header := r.header ||| 2 }

/-- `record_t::match(const record_t*)`: equality on `(key, value)`.
(`match` is a Lean keyword, hence the name `matchRec`.) -/
def record_t.matchRec (r s : record_t) : Bool := r.key == s.key && r.value == s.value

/-- `record_t::match(key, val, tombstone)` / `record_match`: key, value and
tombstone flag must all agree. -/
def record_t.matchKV (r : record_t) (k v : Nat) (ts : Bool) : Bool :=
  r.key == k && r.value == v && r.is_tombstone == ts

/-- `record_t::lt(key, val)`: lexicographic `(key, value) < (k, v)`. -/
def record_t.ltKV (r : record_t) (k v : Nat) : Bool :=
  r.key < k || (r.key == k && r.value < v)

/-- `header &= 1` performed on every record emitted by the
memtable-to-run constructor. -/
def maskHeader (r : record_t) : record_t := { r with header := r.header % 2 }

/-- Stand-in for uninitialised C++ memory. -/
def defaultRecord : record_t := ⟨0, 0, 0⟩

/-- The memtable record header written by `layout_memtable_record`:
insertion slot in bits 2+, tombstone flag in bit 0. -/
def layout_header (slot : Nat) (ts : Bool) : Nat := 4 * slot + (if ts then 1 else 0)

/--
`MemTable` (`src/include/lsm/MemTable.h`), the unsorted append-buffer variant.
`m_data` is the slot array of length `m_cap` (C++ leaves it uninitialised;
the model fills it with `defaultRecord`).  `m_current_tail` counts claimed
slots: it equals the C++ byte counter divided by `record_size` (every update
of the byte counter is a multiple of `record_size`).  `m_bf` is the tombstone
bloom filter as the exact set (list) of inserted keys; the filter object
exists only when `m_tombstone_cap > 0`, exactly as in the constructor.
-/
structure MemTable where
  m_cap : Nat
  m_tombstone_cap : Nat
  m_data : List record_t
  m_reccnt : Nat
  m_tombstonecnt : Nat
  m_current_tail : Nat
  m_bf : List Nat
deriving DecidableEq, Repr

/-- A freshly constructed memtable. -/
def MemTable.mk0 (cap tscap : Nat) : MemTable :=
  ⟨cap, tscap, List.replicate cap defaultRecord, 0, 0, 0, []⟩

/--
`MemTable::append`.  The tombstone-capacity check precedes the tail
reservation; a failed `try_advance_tail` still leaves the tail advanced,
exactly as the fetch-add does in the source.
-/
def MemTable.append (mt : MemTable) (key value : Nat) (ts : Bool) : Nat × MemTable :=
  if ts && decide (mt.m_tombstone_cap < mt.m_tombstonecnt + 1) then (0, mt)
  else
    let pos := mt.m_current_tail
    let mt1 := { mt with m_current_tail := pos + 1 }
    if pos < mt.m_cap then
      (1, { mt1 with
              m_data := mt1.m_data.set pos ⟨key, value, layout_header pos ts⟩,
              m_tombstonecnt := if ts then mt1.m_tombstonecnt + 1 else mt1.m_tombstonecnt,
              m_bf := if ts && decide (0 < mt.m_tombstone_cap) then key :: mt1.m_bf else mt1.m_bf,
              m_reccnt := mt1.m_reccnt + 1 })
    else (0, mt1)

/-- `MemTable::truncate`: zero the counters and clear the filter; the record
buffer itself is untouched. -/
def MemTable.truncate (mt : MemTable) : Bool × MemTable :=
  (true, { mt with m_current_tail := 0, m_tombstonecnt := 0, m_reccnt := 0, m_bf := [] })

/-- `MemTable::get_record_at` (unchecked pointer arithmetic in C++; an
out-of-range index reads uninitialised memory, modelled by `defaultRecord`). -/
def MemTable.get_record_at (mt : MemTable) (idx : Nat) : record_t :=
  mt.m_data.getD idx defaultRecord

/-- `MemTable::is_full`. -/
def MemTable.is_full (mt : MemTable) : Bool := mt.m_reccnt == mt.m_cap

/--
`MemTable::check_tombstone`: bloom-filter pre-filter (skipped when no filter
was allocated, i.e. when `m_tombstone_cap = 0`), then a linear scan of all
claimed slots below the tail for a record matching `(key, value)` with the
tombstone bit set.
-/
def MemTable.check_tombstone (mt : MemTable) (key value : Nat) : Bool :=
  if 0 < mt.m_tombstone_cap && !(mt.m_bf.contains key) then false
  else (List.range mt.m_current_tail).any
        (fun i => (mt.m_data.getD i defaultRecord).matchKV key value true)

/--
Single-threaded reachability of a memtable state: any sequence of `append`
and `truncate` calls starting from a fresh memtable.
-/
inductive MTReachable : MemTable → Prop where
  | init (cap tscap : Nat) : MTReachable (MemTable.mk0 cap tscap)
  | append (mt : MemTable) (k v : Nat) (ts : Bool) :
      MTReachable mt → MTReachable (mt.append k v ts).2
  | trunc (mt : MemTable) : MTReachable mt → MTReachable (mt.truncate).2

/-- The single-threaded tail invariant: the record count is the number of
claimed slots clamped to the capacity. -/
def MTInv (mt : MemTable) : Prop := mt.m_reccnt = min mt.m_current_tail mt.m_cap

theorem mtInv_of_reachable {mt : MemTable} (h : MTReachable mt) : MTInv mt := by
  induction h with
  | init cap tscap => simp [MTInv, MemTable.mk0]
  | append mt k v ts _ ih =>
      unfold MemTable.append
      split
      · exact ih
      · by_cases h2 : mt.m_current_tail < mt.m_cap
        · rw [if_pos h2]
          simp only [MTInv] at ih ⊢
          omega
        · rw [if_neg h2]
          simp only [MTInv] at ih ⊢
          omega
  | trunc mt _ _ => simp [MTInv, MemTable.truncate]

/--
C7.  In single-threaded use (any reachable memtable state), `append` fails
(returns 0) exactly when the record count equals the capacity, or when the
append is a tombstone and the tombstone count plus one would exceed the
tombstone capacity; otherwise it returns 1, writes the record into the next
slot (index `m_reccnt`), increments the record count, and for a tombstone
also increments the tombstone count and inserts the key into the tombstone
bloom filter.
-/
theorem memtable_append_spec (mt : MemTable) (key value : Nat) (ts : Bool)
    (h : MTReachable mt) :
    ((mt.append key value ts).1 = 0 ↔
        (mt.m_reccnt = mt.m_cap ∨ (ts = true ∧ mt.m_tombstone_cap < mt.m_tombstonecnt + 1)))
    ∧ ((mt.append key value ts).1 ≠ 0 →
        (mt.append key value ts).1 = 1
        ∧ (mt.append key value ts).2.m_data
            = mt.m_data.set mt.m_reccnt ⟨key, value, layout_header mt.m_reccnt ts⟩
        ∧ (mt.append key value ts).2.m_reccnt = mt.m_reccnt + 1
        ∧ (ts = true →
            (mt.append key value ts).2.m_tombstonecnt = mt.m_tombstonecnt + 1
            ∧ (mt.append key value ts).2.m_bf = key :: mt.m_bf)) := by
  have hinv : MTInv mt := mtInv_of_reachable h
  unfold MTInv at hinv
  unfold MemTable.append
  by_cases hts : (ts && decide (mt.m_tombstone_cap < mt.m_tombstonecnt + 1)) = true
  · rw [if_pos hts]
    simp only [Bool.and_eq_true, decide_eq_true_eq] at hts
    constructor
    · simp [hts]
    · intro hne
      exact absurd rfl hne
  · rw [if_neg hts]
    simp only [Bool.and_eq_true, decide_eq_true_eq, not_and] at hts
    by_cases hfull : mt.m_current_tail < mt.m_cap
    · have hrec : mt.m_reccnt = mt.m_current_tail := by omega
      rw [if_pos hfull]
      constructor
      · simp only [Nat.one_ne_zero, false_iff]
        rintro (hcap | ⟨hts1, hts2⟩)
        · omega
        · exact absurd hts2 (by simpa using hts hts1)
      · intro _
        refine ⟨rfl, ?_, ?_, ?_⟩
        · rw [hrec]
        · rfl
        · intro htrue
          subst htrue
          have hcap : 0 < mt.m_tombstone_cap := by
            have := hts rfl
            omega
          simp [hcap]
    · rw [if_neg hfull]
      constructor
      · simp only [true_iff]
        left
        omega
      · intro hne
        exact absurd rfl hne

/-- Witness for C7: on a fresh memtable of capacity 3 (reachable by
construction), appending a tombstone succeeds and all the success-branch
conclusions evaluate as stated. -/
theorem memtable_append_spec_witness :
    ((MemTable.mk0 3 2).append 7 9 true).1 = 1
    ∧ ((MemTable.mk0 3 2).append 7 9 true).2.m_reccnt = 1
    ∧ ((MemTable.mk0 3 2).append 7 9 true).2.m_bf = [7] := by
  have h := memtable_append_spec (MemTable.mk0 3 2) 7 9 true (MTReachable.init 3 2)
  have h0 : ((MemTable.mk0 3 2).append 7 9 true).1 ≠ 0 := by
    intro hz
    rcases h.1.mp hz with hc | hc
    · simp [MemTable.mk0] at hc
    · simp [MemTable.mk0] at hc
  obtain ⟨h1, _, h3, h4⟩ := h.2 h0
  exact ⟨h1, h3, (h4 rfl).2⟩

/--
C8.  `truncate` is idempotent: a second `truncate` leaves the memtable in
exactly the same state (in particular the same record count, tombstone
count, tail position and bloom-filter contents) as the first, and also
returns `true`.
-/
theorem memtable_truncate_idempotent (mt : MemTable) :
    (mt.truncate).2.truncate = mt.truncate ∧ ((mt.truncate).2.truncate).1 = true := by
  exact ⟨rfl, rfl⟩


/-! ### Run construction (`src/include/lsm/InMemRun.h`) -/

/-- The cancellation test of both `InMemRun` constructors: the current
minimum is live, and the candidate next element is a tombstone matching it
on `(key, value)`. -/
def cancelCond (r s : record_t) : Bool :=
  !r.is_tombstone && r.matchRec s && s.is_tombstone

/--
`InMemRun::InMemRun(MemTable*, BloomFilter*)`: walk the memtable's sorted
output; a live record immediately followed by a matching tombstone is
dropped together with it; every emitted record has its header masked with
`&= 1`.
-/
def memtableRunRecords : List record_t → List record_t
  | [] => []
  | [r] => [maskHeader r]
  | r :: s :: rest =>
      if cancelCond r s then memtableRunRecords rest
      else maskHeader r :: memtableRunRecords (s :: rest)

/-- The `mrun_cancelations` counter of the memtable-to-run constructor. -/
def memtableRunCancels : List record_t → Nat
  | [] => 0
  | [_] => 0
  | r :: s :: rest =>
      if cancelCond r s then memtableRunCancels rest + 1
      else memtableRunCancels (s :: rest)

/-- The slots of the sorted memtable output that the memtable-to-run
constructor emits, in emission order (slot `i` is `base + i` in the C++
pointer walk). -/
def emittedSlots : List record_t → List Nat
  | [] => []
  | [_] => [0]
  | r :: s :: rest =>
      if cancelCond r s then (emittedSlots rest).map (· + 2)
      else 0 :: (emittedSlots (s :: rest)).map (· + 1)

theorem memtableRunRecords_eq_emitted (l : List record_t) :
    memtableRunRecords l
      = (emittedSlots l).map (fun i => maskHeader (l.getD i defaultRecord)) := by
  induction l using memtableRunRecords.induct with
  | case1 => simp [memtableRunRecords, emittedSlots]
  | case2 r => simp [memtableRunRecords, emittedSlots]
  | case3 r s rest hc ih =>
      rw [memtableRunRecords, if_pos hc, emittedSlots, if_pos hc, ih, List.map_map]
      apply List.map_congr_left
      intro a _
      simp [List.getD_cons_succ]
  | case4 r s rest hc ih =>
      rw [memtableRunRecords, if_neg hc, emittedSlots, if_neg hc, ih]
      simp only [List.map_cons, List.map_map, List.getD_cons_zero]
      congr 1

theorem emittedSlots_skips_cancelled (l : List record_t) (j : Nat) (a b : record_t)
    (ha : l.get? j = some a) (hb : l.get? (j + 1) = some b)
    (hc : cancelCond a b = true) :
    j ∉ emittedSlots l ∧ (j + 1) ∉ emittedSlots l := by
  induction l using memtableRunRecords.induct generalizing j with
  | case1 => simp at ha
  | case2 r =>
      cases j with
      | zero => simp at hb
      | succ n => simp at ha
  | case3 r s rest hcan ih =>
      rw [emittedSlots, if_pos hcan]
      cases j with
      | zero =>
          constructor
          · intro hmem
            rcases List.mem_map.mp hmem with ⟨x, _, hx⟩
            omega
          · intro hmem
            rcases List.mem_map.mp hmem with ⟨x, _, hx⟩
            omega
      | succ n =>
          cases n with
          | zero =>
              -- position 1 holds the cancelled tombstone s, which is not live
              simp only [List.get?_cons_succ, List.get?_cons_zero,
                Option.some.injEq] at ha
              subst ha
              simp only [cancelCond, Bool.and_eq_true] at hc hcan
              rcases hc with ⟨⟨hlive, _⟩, _⟩
              rcases hcan with ⟨_, hts⟩
              rw [hts] at hlive
              simp at hlive
          | succ m =>
              have ha' : rest.get? m = some a := ha
              have hb' : rest.get? (m + 1) = some b := hb
              obtain ⟨h1, h2⟩ := ih m ha' hb'
              constructor
              · intro hmem
                rcases List.mem_map.mp hmem with ⟨x, hx1, hx2⟩
                have : x = m := by omega
                exact h1 (this ▸ hx1)
              · intro hmem
                rcases List.mem_map.mp hmem with ⟨x, hx1, hx2⟩
                have : x = m + 1 := by omega
                exact h2 (this ▸ hx1)
  | case4 r s rest hcan ih =>
      rw [emittedSlots, if_neg hcan]
      cases j with
      | zero =>
          simp only [List.get?_cons_succ, List.get?_cons_zero,
            Option.some.injEq] at ha hb
          subst ha; subst hb
          exact absurd hc hcan
      | succ n =>
          have ha' : (s :: rest).get? n = some a := ha
          have hb' : (s :: rest).get? (n + 1) = some b := hb
          obtain ⟨h1, h2⟩ := ih n ha' hb'
          constructor
          · intro hmem
            rcases List.mem_cons.mp hmem with hz | hmem
            · exact absurd hz (by omega)
            · rcases List.mem_map.mp hmem with ⟨x, hx1, hx2⟩
              have : x = n := by omega
              exact h1 (this ▸ hx1)
          · intro hmem
            rcases List.mem_cons.mp hmem with hz | hmem
            · exact absurd hz (by omega)
            · rcases List.mem_map.mp hmem with ⟨x, hx1, hx2⟩
              have : x = n + 1 := by omega
              exact h2 (this ▸ hx1)

theorem memtableRunRecords_length (l : List record_t) :
    2 * memtableRunCancels l ≤ l.length
    ∧ (memtableRunRecords l).length = l.length - 2 * memtableRunCancels l := by
  induction l using memtableRunRecords.induct with
  | case1 => simp [memtableRunRecords, memtableRunCancels]
  | case2 r => simp [memtableRunRecords, memtableRunCancels]
  | case3 r s rest hc ih =>
      obtain ⟨ih1, ih2⟩ := ih
      rw [memtableRunRecords, if_pos hc, memtableRunCancels, if_pos hc]
      simp only [List.length_cons]
      omega
  | case4 r s rest hc ih =>
      obtain ⟨ih1, ih2⟩ := ih
      rw [memtableRunRecords, if_neg hc, memtableRunCancels, if_neg hc]
      simp only [List.length_cons] at ih1 ih2 ⊢
      omega

/-!
The k-way-merge constructor `InMemRun::InMemRun(InMemRun**, size_t,
BloomFilter*)` draws from a min-heap of per-run cursors.

Modelled from the spec: `ds/PriorityQueue.h` and `util/Cursor.h` are not
under `src/`.  Per the spec, the merge uses a min-heap keyed by the current
front element of each input cursor (runs are sorted ascending by
`(key, value, header-order)`, so the heap order is modelled as lexicographic
on `(key, value, header)` with ties broken by the lower run index), and each
cursor contributes exactly one heap entry at a time.  The loop runs until
the heap is empty; since every iteration consumes at least one record, it is
modelled with `totalLen` (the total number of buffered records) as fuel.
-/

/-- The live heap entries: `(run index, current front record)` for every
non-exhausted cursor. -/
def heapEntriesFrom (i : Nat) : List (List record_t) → List (Nat × record_t)
  | [] => []
  | c :: cs =>
      match c.head? with
      | some r => (i, r) :: heapEntriesFrom (i + 1) cs
      | none => heapEntriesFrom (i + 1) cs

def heapEntries (cursors : List (List record_t)) : List (Nat × record_t) :=
  heapEntriesFrom 0 cursors

/-- Strict heap order on entries: lexicographic on
`(key, value, header, run index)`. -/
def entryLt (a b : Nat × record_t) : Bool :=
  a.2.key < b.2.key
  || (a.2.key == b.2.key
      && (a.2.value < b.2.value
          || (a.2.value == b.2.value
              && (a.2.header < b.2.header
                  || (a.2.header == b.2.header && a.1 < b.1)))))

def pickBetter (a b : Nat × record_t) : Nat × record_t :=
  if entryLt b a then b else a

/-- `PriorityQueue::peek`: the minimal entry of the heap. -/
def findMinEntry : List (Nat × record_t) → Option (Nat × record_t)
  | [] => none
  | e :: rest => some (rest.foldl pickBetter e)

/-- Advance the cursor of run `i` past its front record. -/
def advanceAt (cursors : List (List record_t)) (i : Nat) : List (List record_t) :=
  cursors.set i (cursors.getD i []).tail

def totalLen (cursors : List (List record_t)) : Nat :=
  (cursors.map List.length).sum

theorem foldl_pickBetter_mem (rest : List (Nat × record_t)) (acc : Nat × record_t) :
    rest.foldl pickBetter acc ∈ acc :: rest := by
  induction rest generalizing acc with
  | nil => simp
  | cons b bs ih =>
      simp only [List.foldl_cons]
      have h := ih (pickBetter acc b)
      rcases List.mem_cons.mp h with h | h
      · rw [h]
        unfold pickBetter
        by_cases hb : entryLt b acc = true
        · simp [hb]
        · simp [hb]
      · simp only [List.mem_cons]
        right; right; exact h

theorem findMinEntry_mem {l : List (Nat × record_t)} {e : Nat × record_t}
    (h : findMinEntry l = some e) : e ∈ l := by
  cases l with
  | nil => simp [findMinEntry] at h
  | cons a rest =>
      simp only [findMinEntry, Option.some.injEq] at h
      subst h
      exact foldl_pickBetter_mem rest a

theorem heapEntriesFrom_mem {i : Nat} {p : Nat × record_t} {cs : List (List record_t)}
    (h : p ∈ heapEntriesFrom i cs) :
    i ≤ p.1 ∧ (cs.getD (p.1 - i) []).head? = some p.2 := by
  induction cs generalizing i with
  | nil => simp [heapEntriesFrom] at h
  | cons c cs ih =>
      unfold heapEntriesFrom at h
      cases hc : c.head? with
      | some x =>
          rw [hc] at h
          rcases List.mem_cons.mp h with h | h
          · subst h
            simp [hc]
          · obtain ⟨h1, h2⟩ := ih h
            refine ⟨by omega, ?_⟩
            have hji : p.1 - i = (p.1 - (i + 1)) + 1 := by omega
            rw [hji]
            simpa using h2
      | none =>
          rw [hc] at h
          obtain ⟨h1, h2⟩ := ih h
          refine ⟨by omega, ?_⟩
          have hji : p.1 - i = (p.1 - (i + 1)) + 1 := by omega
          rw [hji]
          simpa using h2

theorem heapEntries_mem {p : Nat × record_t} {cs : List (List record_t)}
    (h : p ∈ heapEntries cs) : (cs.getD p.1 []).head? = some p.2 := by
  have h2 := heapEntriesFrom_mem h
  simpa using h2.2

theorem totalLen_advanceAt {cs : List (List record_t)} {j : Nat}
    (h : cs.getD j [] ≠ []) : totalLen (advanceAt cs j) + 1 = totalLen cs := by
  induction cs generalizing j with
  | nil => simp [List.getD] at h
  | cons c cs ih =>
      cases j with
      | zero =>
          simp only [List.getD_cons_zero] at h
          cases c with
          | nil => exact absurd rfl h
          | cons x xs =>
              simp only [advanceAt, totalLen, List.getD_cons_zero, List.set_cons_zero,
                List.map_cons, List.sum_cons, List.tail_cons, List.length_cons]
              omega
      | succ n =>
          simp only [List.getD_cons_succ] at h
          have := ih h
          simp only [advanceAt, totalLen, List.getD_cons_succ, List.set_cons_succ,
            List.map_cons, List.sum_cons] at this ⊢
          omega

theorem getD_advanceAt_ne {cs : List (List record_t)} {i j : Nat} (h : i ≠ j) :
    (advanceAt cs i).getD j [] = cs.getD j [] := by
  unfold advanceAt
  by_cases hj : j < cs.length
  · rw [List.getD_eq_getElem?_getD, List.getElem?_set_ne (by omega),
      ← List.getD_eq_getElem?_getD]
  · rw [List.getD_eq_default, List.getD_eq_default]
    · omega
    · simpa using (by omega : cs.length ≤ j)

theorem totalLen_zero_heapEntriesFrom {cs : List (List record_t)}
    (h : totalLen cs = 0) (i : Nat) : heapEntriesFrom i cs = [] := by
  induction cs generalizing i with
  | nil => simp [heapEntriesFrom]
  | cons c cs ih =>
      simp only [totalLen, List.map_cons, List.sum_cons] at h
      have hc : c = [] := List.eq_nil_of_length_eq_zero (by omega)
      subst hc
      unfold heapEntriesFrom
      simp only [List.head?_nil]
      exact ih (by simpa [totalLen] using (by omega : (cs.map List.length).sum = 0)) (i + 1)

/--
The k-way merge loop of `InMemRun::InMemRun(InMemRun**, size_t,
BloomFilter*)`: pop the heap minimum; if it is live and the second-smallest
heap entry is a matching tombstone, drop both (advancing both cursors) and
count a cancellation; otherwise emit the minimum and advance its cursor.
`fuel` bounds the iteration count; `totalLen` fuel always suffices.
-/
def mergeRunsGo : Nat → List (List record_t) → List record_t × Nat
  | 0, _ => ([], 0)
  | fuel + 1, cursors =>
      match findMinEntry (heapEntries cursors) with
      | none => ([], 0)
      | some e =>
          match findMinEntry ((heapEntries cursors).filter (fun x => x.1 != e.1)) with
          | some f =>
              if cancelCond e.2 f.2 then
                let res := mergeRunsGo fuel (advanceAt (advanceAt cursors e.1) f.1)
                (res.1, res.2 + 1)
              else
                let res := mergeRunsGo fuel (advanceAt cursors e.1)
                (e.2 :: res.1, res.2)
          | none =>
              let res := mergeRunsGo fuel (advanceAt cursors e.1)
              (e.2 :: res.1, res.2)

/-- Emitted records and cancellation count of the k-way merge. -/
def mergeRunsAux (cursors : List (List record_t)) : List record_t × Nat :=
  mergeRunsGo (totalLen cursors) cursors

/-- The record array of a merged run. -/
def mergeRuns (cursors : List (List record_t)) : List record_t :=
  (mergeRunsAux cursors).1

theorem findMinEntry_heapEntries_facts {cs : List (List record_t)}
    {e : Nat × record_t} (hm : findMinEntry (heapEntries cs) = some e) :
    cs.getD e.1 [] ≠ [] := by
  have hmem := findMinEntry_mem hm
  have h := heapEntries_mem hmem
  intro hnil
  rw [hnil] at h
  simp at h

theorem findMinEntry_filter_facts {cs : List (List record_t)}
    {e f : Nat × record_t}
    (hn : findMinEntry ((heapEntries cs).filter (fun x => x.1 != e.1)) = some f) :
    f.1 ≠ e.1 ∧ cs.getD f.1 [] ≠ [] := by
  have hmem := findMinEntry_mem hn
  have h1 := List.of_mem_filter hmem
  have h2 := heapEntries_mem (List.mem_of_mem_filter hmem)
  refine ⟨by simpa using h1, ?_⟩
  intro hnil
  rw [hnil] at h2
  simp at h2

theorem totalLen_cancel_step {cs : List (List record_t)} {e f : Nat × record_t}
    (hm : findMinEntry (heapEntries cs) = some e)
    (hn : findMinEntry ((heapEntries cs).filter (fun x => x.1 != e.1)) = some f) :
    totalLen (advanceAt (advanceAt cs e.1) f.1) + 2 = totalLen cs := by
  have hene := findMinEntry_heapEntries_facts hm
  obtain ⟨hfne, hf2ne⟩ := findMinEntry_filter_facts hn
  have h1 := totalLen_advanceAt hene
  have hpres : (advanceAt cs e.1).getD f.1 [] = cs.getD f.1 [] :=
    getD_advanceAt_ne (by omega)
  have h2 : totalLen (advanceAt (advanceAt cs e.1) f.1) + 1
      = totalLen (advanceAt cs e.1) := by
    apply totalLen_advanceAt
    rw [hpres]; exact hf2ne
  omega

theorem mergeRunsGo_step_none (fuel : Nat) (cs : List (List record_t))
    (hm : findMinEntry (heapEntries cs) = none) :
    mergeRunsGo (fuel + 1) cs = ([], 0) := by
  conv_lhs => unfold mergeRunsGo
  rw [hm]

theorem mergeRunsGo_step_cancel (fuel : Nat) (cs : List (List record_t))
    (e f : Nat × record_t)
    (hm : findMinEntry (heapEntries cs) = some e)
    (hn : findMinEntry ((heapEntries cs).filter (fun x => x.1 != e.1)) = some f)
    (hc : cancelCond e.2 f.2 = true) :
    mergeRunsGo (fuel + 1) cs
      = ((mergeRunsGo fuel (advanceAt (advanceAt cs e.1) f.1)).1,
         (mergeRunsGo fuel (advanceAt (advanceAt cs e.1) f.1)).2 + 1) := by
  conv_lhs => unfold mergeRunsGo
  rw [hm]
  dsimp only
  rw [hn]
  dsimp only
  rw [if_pos hc]

theorem mergeRunsGo_step_emit2 (fuel : Nat) (cs : List (List record_t))
    (e f : Nat × record_t)
    (hm : findMinEntry (heapEntries cs) = some e)
    (hn : findMinEntry ((heapEntries cs).filter (fun x => x.1 != e.1)) = some f)
    (hc : ¬cancelCond e.2 f.2 = true) :
    mergeRunsGo (fuel + 1) cs
      = (e.2 :: (mergeRunsGo fuel (advanceAt cs e.1)).1,
         (mergeRunsGo fuel (advanceAt cs e.1)).2) := by
  conv_lhs => unfold mergeRunsGo
  rw [hm]
  dsimp only
  rw [hn]
  dsimp only
  rw [if_neg hc]

theorem mergeRunsGo_step_emit1 (fuel : Nat) (cs : List (List record_t))
    (e : Nat × record_t)
    (hm : findMinEntry (heapEntries cs) = some e)
    (hn : findMinEntry ((heapEntries cs).filter (fun x => x.1 != e.1)) = none) :
    mergeRunsGo (fuel + 1) cs
      = (e.2 :: (mergeRunsGo fuel (advanceAt cs e.1)).1,
         (mergeRunsGo fuel (advanceAt cs e.1)).2) := by
  conv_lhs => unfold mergeRunsGo
  rw [hm]
  dsimp only
  rw [hn]

/-- With at least `totalLen` fuel, the merge loop result does not depend on
the exact fuel value. -/
theorem mergeRunsGo_fuel_congr :
    ∀ (fuel fuel' : Nat) (cs : List (List record_t)),
      totalLen cs ≤ fuel → totalLen cs ≤ fuel' →
      mergeRunsGo fuel cs = mergeRunsGo fuel' cs := by
  intro fuel
  induction fuel with
  | zero =>
      intro fuel' cs h h'
      have h0 : totalLen cs = 0 := by omega
      have hemp : heapEntries cs = [] := totalLen_zero_heapEntriesFrom h0 0
      cases fuel' with
      | zero => rfl
      | succ n =>
          simp [mergeRunsGo, hemp, findMinEntry]
  | succ n ih =>
      intro fuel' cs h h'
      cases fuel' with
      | zero =>
          have h0 : totalLen cs = 0 := by omega
          have hemp : heapEntries cs = [] := totalLen_zero_heapEntriesFrom h0 0
          simp [mergeRunsGo, hemp, findMinEntry]
      | succ m =>
          cases hm : findMinEntry (heapEntries cs) with
          | none => rw [mergeRunsGo_step_none n cs hm, mergeRunsGo_step_none m cs hm]
          | some e =>
              cases hn : findMinEntry ((heapEntries cs).filter (fun x => x.1 != e.1)) with
              | some f =>
                  by_cases hc : cancelCond e.2 f.2 = true
                  · rw [mergeRunsGo_step_cancel n cs e f hm hn hc,
                      mergeRunsGo_step_cancel m cs e f hm hn hc]
                    have hstep := totalLen_cancel_step hm hn
                    rw [ih m _ (by omega) (by omega)]
                  · rw [mergeRunsGo_step_emit2 n cs e f hm hn hc,
                      mergeRunsGo_step_emit2 m cs e f hm hn hc]
                    have hene := findMinEntry_heapEntries_facts hm
                    have hstep := totalLen_advanceAt hene
                    rw [ih m _ (by omega) (by omega)]
              | none =>
                  rw [mergeRunsGo_step_emit1 n cs e hm hn,
                    mergeRunsGo_step_emit1 m cs e hm hn]
                  have hene := findMinEntry_heapEntries_facts hm
                  have hstep := totalLen_advanceAt hene
                  rw [ih m _ (by omega) (by omega)]

/-- Unfolding the merge at a cancellation step: both matched records are
consumed, neither is emitted, and the cancellation counter increments. -/
theorem mergeRunsAux_cancel_step (cs : List (List record_t))
    (e f : Nat × record_t)
    (hm : findMinEntry (heapEntries cs) = some e)
    (hn : findMinEntry ((heapEntries cs).filter (fun x => x.1 != e.1)) = some f)
    (hc : cancelCond e.2 f.2 = true) :
    (mergeRunsAux cs).1 = (mergeRunsAux (advanceAt (advanceAt cs e.1) f.1)).1
    ∧ (mergeRunsAux cs).2
        = (mergeRunsAux (advanceAt (advanceAt cs e.1) f.1)).2 + 1 := by
  have hstep := totalLen_cancel_step hm hn
  unfold mergeRunsAux
  have hpos : totalLen cs = (totalLen cs - 1) + 1 := by omega
  rw [hpos, mergeRunsGo_step_cancel (totalLen cs - 1) cs e f hm hn hc]
  rw [mergeRunsGo_fuel_congr (totalLen cs - 1) (totalLen (advanceAt (advanceAt cs e.1) f.1))
    (advanceAt (advanceAt cs e.1) f.1) (by omega) (by omega)]
  exact ⟨rfl, rfl⟩

theorem findMinEntry_none_eq_nil {l : List (Nat × record_t)}
    (h : findMinEntry l = none) : l = [] := by
  cases l with
  | nil => rfl
  | cons a rest => simp [findMinEntry] at h

theorem heapEntriesFrom_nil_totalLen {cs : List (List record_t)} :
    ∀ i : Nat, heapEntriesFrom i cs = [] → totalLen cs = 0 := by
  induction cs with
  | nil => intro i _; rfl
  | cons c cs ih =>
      intro i h
      unfold heapEntriesFrom at h
      cases hc : c.head? with
      | some x => rw [hc] at h; simp at h
      | none =>
          rw [hc] at h
          have hcnil : c = [] := by
            cases c with
            | nil => rfl
            | cons y ys => simp at hc
          subst hcnil
          have := ih (i + 1) h
          simp only [totalLen, List.map_cons, List.sum_cons, List.length_nil] at this ⊢
          omega

theorem mergeRunsGo_length :
    ∀ (fuel : Nat) (cs : List (List record_t)), totalLen cs ≤ fuel →
      2 * (mergeRunsGo fuel cs).2 ≤ totalLen cs
      ∧ (mergeRunsGo fuel cs).1.length = totalLen cs - 2 * (mergeRunsGo fuel cs).2 := by
  intro fuel
  induction fuel with
  | zero =>
      intro cs h
      simp only [mergeRunsGo, List.length_nil]
      omega
  | succ n ih =>
      intro cs h
      cases hm : findMinEntry (heapEntries cs) with
      | none =>
          rw [mergeRunsGo_step_none n cs hm]
          have h0 : totalLen cs = 0 :=
            heapEntriesFrom_nil_totalLen 0 (findMinEntry_none_eq_nil hm)
          simp [h0]
      | some e =>
          cases hn : findMinEntry ((heapEntries cs).filter (fun x => x.1 != e.1)) with
          | some f =>
              by_cases hc : cancelCond e.2 f.2 = true
              · rw [mergeRunsGo_step_cancel n cs e f hm hn hc]
                have hstep := totalLen_cancel_step hm hn
                obtain ⟨ih1, ih2⟩ := ih (advanceAt (advanceAt cs e.1) f.1) (by omega)
                simp only
                omega
              · rw [mergeRunsGo_step_emit2 n cs e f hm hn hc]
                have hene := findMinEntry_heapEntries_facts hm
                have hstep := totalLen_advanceAt hene
                obtain ⟨ih1, ih2⟩ := ih (advanceAt cs e.1) (by omega)
                simp only [List.length_cons]
                omega
          | none =>
              rw [mergeRunsGo_step_emit1 n cs e hm hn]
              have hene := findMinEntry_heapEntries_facts hm
              have hstep := totalLen_advanceAt hene
              obtain ⟨ih1, ih2⟩ := ih (advanceAt cs e.1) (by omega)
              simp only [List.length_cons]
              omega

theorem mergeRunsAux_length (cs : List (List record_t)) :
    2 * (mergeRunsAux cs).2 ≤ totalLen cs
    ∧ (mergeRunsAux cs).1.length = totalLen cs - 2 * (mergeRunsAux cs).2 :=
  mergeRunsGo_length (totalLen cs) cs (Nat.le_refl _)

/--
C5.  Tombstone cancellation during run construction.  (1) Building a run
from a memtable's sorted output emits exactly the slots in `emittedSlots`;
whenever the element at slot `j` is live and the element at slot `j+1` is a
tombstone matching it on key and value, neither slot is emitted into the
run's record array, and the run's record count is the input length reduced
by two per cancelled pair.  (2) In the k-way merge, whenever the heap
minimum is live and the next heap entry is a matching tombstone, the merge
consumes both without emitting either and counts one cancellation, and the
merged run's record count is the total input length reduced by two per
cancellation.
-/
theorem run_construction_cancellation :
    (∀ l : List record_t,
      memtableRunRecords l
          = (emittedSlots l).map (fun i => maskHeader (l.getD i defaultRecord))
      ∧ (∀ j a b, l.get? j = some a → l.get? (j + 1) = some b →
            cancelCond a b = true →
            j ∉ emittedSlots l ∧ (j + 1) ∉ emittedSlots l)
      ∧ (memtableRunRecords l).length = l.length - 2 * memtableRunCancels l
      ∧ 2 * memtableRunCancels l ≤ l.length)
    ∧ (∀ cursors : List (List record_t),
      ((mergeRunsAux cursors).1.length
          = totalLen cursors - 2 * (mergeRunsAux cursors).2
        ∧ 2 * (mergeRunsAux cursors).2 ≤ totalLen cursors)
      ∧ (∀ e f, findMinEntry (heapEntries cursors) = some e →
          findMinEntry ((heapEntries cursors).filter (fun x => x.1 != e.1)) = some f →
          cancelCond e.2 f.2 = true →
          (mergeRunsAux cursors).1
              = (mergeRunsAux (advanceAt (advanceAt cursors e.1) f.1)).1
          ∧ (mergeRunsAux cursors).2
              = (mergeRunsAux (advanceAt (advanceAt cursors e.1) f.1)).2 + 1)) := by
  constructor
  · intro l
    refine ⟨memtableRunRecords_eq_emitted l, ?_, (memtableRunRecords_length l).2,
      (memtableRunRecords_length l).1⟩
    intro j a b ha hb hc
    exact emittedSlots_skips_cancelled l j a b ha hb hc
  · intro cursors
    refine ⟨⟨(mergeRunsAux_length cursors).2, (mergeRunsAux_length cursors).1⟩, ?_⟩
    intro e f hm hn hc
    exact mergeRunsAux_cancel_step cursors e f hm hn hc

/-- Witness for C5: on the concrete sorted input
`[live(1,1), ts(1,1), live(2,2)]` the constructor cancels the pair at slots
0 and 1 (neither is emitted) and the run keeps exactly one record; a
two-cursor merge of `[live(3,3)]` and `[ts(3,3)]` cancels everything. -/
theorem run_construction_cancellation_witness :
    memtableRunRecords [⟨1, 1, 0⟩, ⟨1, 1, 1⟩, ⟨2, 2, 0⟩] = [⟨2, 2, 0⟩]
    ∧ (0 : Nat) ∉ emittedSlots [⟨1, 1, 0⟩, ⟨1, 1, 1⟩, ⟨2, 2, 0⟩]
    ∧ (1 : Nat) ∉ emittedSlots [⟨1, 1, 0⟩, ⟨1, 1, 1⟩, ⟨2, 2, 0⟩]
    ∧ (mergeRunsAux [[⟨3, 3, 0⟩], [⟨3, 3, 1⟩]]).1 = []
    ∧ (mergeRunsAux [[⟨3, 3, 0⟩], [⟨3, 3, 1⟩]]).2 = 1 := by
  have h := run_construction_cancellation
  have h1 := (h.1 [⟨1, 1, 0⟩, ⟨1, 1, 1⟩, ⟨2, 2, 0⟩]).2.1 0 ⟨1, 1, 0⟩ ⟨1, 1, 1⟩
    (by rfl) (by rfl) (by decide)
  have h2 := (h.2 [[⟨3, 3, 0⟩], [⟨3, 3, 1⟩]]).2 (0, ⟨3, 3, 0⟩) (1, ⟨3, 3, 1⟩)
    (by decide) (by decide) (by decide)
  refine ⟨by decide, h1.1, h1.2, ?_, ?_⟩
  · rw [h2.1]
    decide
  · rw [h2.2]
    decide

/-! ### The compact ISAM directory of `InMemRun` (`src/include/lsm/InMemRun.h`)

`inmem_isam_node_size = 256`; with the fixed-width layout of `util/record.h`
(8-byte keys and pointers, 24-byte records — the header itself is not under
`src/`, cf. the record model above) this gives
`inmem_isam_fanout = 256 / 16 = 16` children per index node and
`inmem_isam_leaf_fanout = 256 / 24 = 10` records per leaf group.  The
development below is parametric in both fan-outs; the concrete definitions
instantiate them.

Representation: the node array is modelled level by level, bottom first.  A
node is its list of `(separator key, child)` entries; at the leaf index
level the child is a record base index, at higher levels it is the index of
a node in the level below (the source's child pointers, made positional).
A node's `keys[fanout-1]` slot — read by the parent when building the next
level — is its last entry's separator when the node holds exactly `fanout`
entries and `0` (from the `memset`) otherwise, exactly as in
`build_internal_levels`.
-/

def inmem_isam_fanout : Nat := 16

def inmem_isam_leaf_fanout : Nat := 10

/-- Split a list into consecutive chunks of `F` (the last chunk may be
shorter); fuel-driven so that it evaluates by reduction. -/
def chunkFGo {α : Type} (F : Nat) : Nat → List α → List (List α)
  | 0, _ => []
  | fuel + 1, xs => if xs.isEmpty then [] else xs.take F :: chunkFGo F fuel (xs.drop F)

def chunkF {α : Type} (F : Nat) (xs : List α) : List (List α) :=
  chunkFGo F xs.length xs

theorem chunkFGo_congr {α : Type} {F : Nat} (hF : 1 ≤ F) :
    ∀ (fuel fuel' : Nat) (xs : List α), xs.length ≤ fuel → xs.length ≤ fuel' →
      chunkFGo F fuel xs = chunkFGo F fuel' xs := by
  intro fuel
  induction fuel with
  | zero =>
      intro fuel' xs h h'
      have hx : xs = [] := List.eq_nil_of_length_eq_zero (by omega)
      subst hx
      cases fuel' with
      | zero => rfl
      | succ m => simp [chunkFGo]
  | succ n ih =>
      intro fuel' xs h h'
      cases fuel' with
      | zero =>
          have hx : xs = [] := List.eq_nil_of_length_eq_zero (by omega)
          subst hx
          simp [chunkFGo]
      | succ m =>
          unfold chunkFGo
          by_cases hx : xs.isEmpty
          · rw [if_pos hx, if_pos hx]
          · rw [if_neg hx, if_neg hx]
            have hlen : (xs.drop F).length ≤ n := by
              have : xs.length ≠ 0 := by
                intro h0
                exact hx (List.isEmpty_iff.mpr (List.eq_nil_of_length_eq_zero h0))
              simp only [List.length_drop]
              omega
            have hlen' : (xs.drop F).length ≤ m := by
              have : xs.length ≠ 0 := by
                intro h0
                exact hx (List.isEmpty_iff.mpr (List.eq_nil_of_length_eq_zero h0))
              simp only [List.length_drop]
              omega
            rw [ih m (xs.drop F) hlen hlen']

theorem chunkF_nil {α : Type} (F : Nat) : chunkF F ([] : List α) = [] := rfl

theorem chunkF_cons {α : Type} {F : Nat} (hF : 1 ≤ F) {xs : List α} (hx : xs ≠ []) :
    chunkF F xs = xs.take F :: chunkF F (xs.drop F) := by
  have hlen : 1 ≤ xs.length := by
    cases xs with
    | nil => exact absurd rfl hx
    | cons a l => simp
  have hexp : xs.length = (xs.length - 1) + 1 := by omega
  unfold chunkF
  conv_lhs => rw [hexp]
  show (if xs.isEmpty then [] else xs.take F :: chunkFGo F (xs.length - 1) (xs.drop F)) = _
  rw [if_neg (by simpa using hx)]
  congr 1
  exact chunkFGo_congr hF _ _ _ (by simp only [List.length_drop]; omega) (Nat.le_refl _)

theorem chunkF_length_iff {α : Type} {F : Nat} (hF : 1 ≤ F) :
    ∀ (xs : List α) (u : Nat), u < (chunkF F xs).length ↔ u * F < xs.length := by
  suffices h : ∀ (n : Nat) (xs : List α) (u : Nat), xs.length = n →
      (u < (chunkF F xs).length ↔ u * F < xs.length) by
    intro xs u
    exact h xs.length xs u rfl
  intro n
  induction n using Nat.strong_induction_on with
  | _ n ih =>
      intro xs u hn
      cases xs with
      | nil => simp [chunkF_nil]
      | cons a l =>
          rw [chunkF_cons hF (by simp)]
          cases u with
          | zero =>
              simp only [List.length_cons]
              constructor
              · intro _; omega
              · intro _; omega
          | succ v =>
              have hdl : ((a :: l).drop F).length < n := by
                simp only [List.length_drop, List.length_cons]
                simp only [List.length_cons] at hn
                omega
              have hrec := ih _ hdl ((a :: l).drop F) v rfl
              simp only [List.length_cons, List.length_drop] at hrec ⊢
              have hsm : (v + 1) * F = v * F + F := by ring
              constructor
              · intro h
                have hv := hrec.mp (by omega)
                omega
              · intro h
                have hv := hrec.mpr (by omega)
                omega

theorem chunkF_getD {α : Type} {F : Nat} (hF : 1 ≤ F) :
    ∀ (xs : List α) (u : Nat), u * F < xs.length →
      (chunkF F xs).getD u [] = (xs.drop (u * F)).take F := by
  suffices h : ∀ (n : Nat) (xs : List α) (u : Nat), xs.length = n → u * F < xs.length →
      (chunkF F xs).getD u [] = (xs.drop (u * F)).take F by
    intro xs u hu
    exact h xs.length xs u rfl hu
  intro n
  induction n using Nat.strong_induction_on with
  | _ n ih =>
      intro xs u hn hu
      cases xs with
      | nil => simp at hu
      | cons a l =>
          rw [chunkF_cons hF (by simp)]
          cases u with
          | zero => simp
          | succ v =>
              have hdl : ((a :: l).drop F).length < n := by
                simp only [List.length_drop, List.length_cons]
                simp only [List.length_cons] at hn
                omega
              have hsm : (v + 1) * F = v * F + F := by ring
              have hv : v * F < ((a :: l).drop F).length := by
                simp only [List.length_drop]
                simp only [List.length_cons] at hu ⊢
                omega
              have hrec := ih _ hdl ((a :: l).drop F) v rfl hv
              simp only [List.getD_cons_succ, hrec, List.drop_drop]
              congr 2
              omega

/-- The separator key stored for the leaf group starting at record index
`b`: the key of `min(rec_ptr + inmem_isam_leaf_fanout - 1, leaf_stop - 1)`. -/
def groupSepKey (recs : List record_t) (L b : Nat) : Nat :=
  (recs.getD (min (b + L - 1) (recs.length - 1)) defaultRecord).key

/-- The `(separator, record base)` entries of the leaf index level, one per
leaf group of `L` consecutive records. -/
def leafChildrenGo (recs : List record_t) (L : Nat) : Nat → Nat → List (Nat × Nat)
  | 0, _ => []
  | fuel + 1, b =>
      if b < recs.length then (groupSepKey recs L b, b) :: leafChildrenGo recs L fuel (b + L)
      else []

def leafChildren (recs : List record_t) (L : Nat) : List (Nat × Nat) :=
  leafChildrenGo recs L recs.length 0

/-- An index node is its entry list; `keys[fanout-1]` — read by the level
above — is the last separator when the node is full and `0` (`memset`)
otherwise. -/
def nodeLastKey (F : Nat) (nd : List (Nat × Nat)) : Nat :=
  if nd.length = F then (nd.getLastD (0, 0)).1 else 0

/-- One bottom-up level step of `build_internal_levels`: each new node takes
`F` consecutive nodes of the level below as children, keyed by their
`keys[F-1]` slots; the children are made positional (`List.enum`). -/
def nextLevel (F : Nat) (lvl : List (List (Nat × Nat))) : List (List (Nat × Nat)) :=
  chunkF F (lvl.enum.map (fun p => (nodeLastKey F p.2, p.1)))

/-- All index levels, bottom (leaf index level) first, ending with the
single-node root level. -/
def buildLevelsGo (F : Nat) : Nat → List (List (Nat × Nat)) → List (List (List (Nat × Nat)))
  | 0, lvl => [lvl]
  | fuel + 1, lvl =>
      if lvl.length ≤ 1 then [lvl] else lvl :: buildLevelsGo F fuel (nextLevel F lvl)

/-- The ISAM directory of a run, as the top-first list of levels that the
descent walks (`m_root` is the single node of the last-built level). -/
def buildISAM (recs : List record_t) : List (List (List (Nat × Nat))) :=
  (buildLevelsGo inmem_isam_fanout
      (chunkF inmem_isam_fanout (leafChildren recs inmem_isam_leaf_fanout)).length
      (chunkF inmem_isam_fanout (leafChildren recs inmem_isam_leaf_fanout))).reverse

/--
The per-node child choice of `get_lower_bound` / `get_upper_bound`: take the
first entry whose successor is absent (`child[i+1] == nullptr`, which also
covers the fall-through to `child[inmem_isam_fanout - 1]`) or whose
separator satisfies the comparison.
-/
def chooseChild {α : Type} (cmp : Nat → Nat → Bool) (x : Nat) :
    List (Nat × α) → Option α
  | [] => none
  | [c] => some c.2
  | c :: c2 :: rest => if cmp x c.1 then some c.2 else chooseChild cmp x (c2 :: rest)

/-- Walk the directory top-down: at each level select a child of the current
node; below the leaf index level the accumulated value is a record base. -/
def descendLevels (cmp : Nat → Nat → Bool) (x : Nat) :
    List (List (List (Nat × Nat))) → Nat → Nat
  | [], idx => idx
  | lvl :: lower, idx =>
      descendLevels cmp x lower ((chooseChild cmp x (lvl.getD idx [])).getD 0)

/-- The trailing linear scan: first index `j ≥ b` whose record satisfies the
stopping predicate, else the record count. -/
def scanFrom (p : record_t → Bool) (recs : List record_t) (b : Nat) : Nat :=
  b + (recs.drop b).findIdx p

/-- `InMemRun::get_lower_bound`: descend choosing the first child whose
separator is `≥ key`, then scan forward to the first record with
`key ≤ record.key`. -/
def get_lower_bound (recs : List record_t) (x : Nat) : Nat :=
  scanFrom (fun r => decide (x ≤ r.key)) recs
    (descendLevels (fun a s => decide (a ≤ s)) x (buildISAM recs) 0)

/-- `InMemRun::get_upper_bound`: same with strict comparisons. -/
def get_upper_bound (recs : List record_t) (x : Nat) : Nat :=
  scanFrom (fun r => decide (x < r.key)) recs
    (descendLevels (fun a s => decide (a < s)) x (buildISAM recs) 0)

/-! #### Correctness of `get_lower_bound` / `get_upper_bound` (claim C6) -/

theorem getD_eq_getElem_of_lt {α : Type} (l : List α) (d : α) {i : Nat}
    (h : i < l.length) : l.getD i d = l[i] := by
  rw [List.getD_eq_getElem?_getD, List.getElem?_eq_getElem h]
  rfl

theorem findIdx_ge_of_false_below {p : record_t → Bool} {recs : List record_t} {e : Nat}
    (he : e ≤ recs.length)
    (h : ∀ i, i < e → p (recs.getD i defaultRecord) = false) :
    e ≤ recs.findIdx p := by
  by_contra hlt
  push_neg at hlt
  have hfl : recs.findIdx p < recs.length := by omega
  have htrue := List.findIdx_getElem (w := hfl)
  have h2 := h (recs.findIdx p) (by omega)
  rw [getD_eq_getElem_of_lt recs defaultRecord hfl] at h2
  rw [h2] at htrue
  exact absurd htrue (by simp)

theorem findIdx_le_of_true_at {p : record_t → Bool} {recs : List record_t} {i : Nat}
    (hi : i < recs.length)
    (h : p (recs.getD i defaultRecord) = true) : recs.findIdx p ≤ i := by
  by_contra hlt
  push_neg at hlt
  have hfalse := List.not_of_lt_findIdx hlt
  rw [getD_eq_getElem_of_lt recs defaultRecord hi] at h
  rw [h] at hfalse
  simp at hfalse

theorem sorted_key_mono {recs : List record_t}
    (hs : recs.Pairwise (fun r s => r.key ≤ s.key)) {i j : Nat}
    (hij : i ≤ j) (hj : j < recs.length) :
    (recs.getD i defaultRecord).key ≤ (recs.getD j defaultRecord).key := by
  rcases Nat.eq_or_lt_of_le hij with heq | hlt
  · subst heq; exact Nat.le_refl _
  · rw [getD_eq_getElem_of_lt recs defaultRecord (by omega),
      getD_eq_getElem_of_lt recs defaultRecord hj]
    exact List.pairwise_iff_getElem.mp hs i j (by omega) hj hlt

/-- The trailing linear scan returns the global first matching index
whenever it starts at or before it. -/
theorem scanFrom_eq_findIdx {p : record_t → Bool} :
    ∀ (B : Nat) (recs : List record_t), B ≤ recs.findIdx p →
      scanFrom p recs B = recs.findIdx p := by
  intro B
  induction B with
  | zero => intro recs _; simp [scanFrom]
  | succ m ih =>
      intro recs hB
      cases recs with
      | nil => simp [List.findIdx_nil] at hB
      | cons r rs =>
          rw [List.findIdx_cons] at hB ⊢
          by_cases hp : p r = true
          · simp [hp] at hB
          · have hpf : p r = false := by simpa using hp
            simp only [hpf, cond_false] at hB ⊢
            have hB' : m ≤ rs.findIdx p := by omega
            have := ih rs hB'
            simp only [scanFrom, List.drop_succ_cons] at this ⊢
            omega

/-- Interval discipline for an index level: each entry of the level covers a
non-empty record interval, consecutive entries chain, and all intervals stay
within the record count. -/
def IvChain (n : Nat) (ivs : List (Nat × Nat)) : Prop :=
  (∀ t, t < ivs.length → (ivs.getD t (0, 0)).1 < (ivs.getD t (0, 0)).2
      ∧ (ivs.getD t (0, 0)).2 ≤ n)
  ∧ (∀ t, t + 1 < ivs.length → (ivs.getD t (0, 0)).2 = (ivs.getD (t + 1) (0, 0)).1)

/-- Separator discipline: every entry that has a successor stores the key of
the last record of its interval. -/
def SepsOK (recs : List record_t) (es ivs : List (Nat × Nat)) : Prop :=
  es.length = ivs.length ∧
  ∀ t, t + 1 < es.length →
    (es.getD t (0, 0)).1 = (recs.getD ((ivs.getD t (0, 0)).2 - 1) defaultRecord).key

theorem ivChain_tail {n : Nat} {iv : Nat × Nat} {ivs : List (Nat × Nat)}
    (h : IvChain n (iv :: ivs)) : IvChain n ivs := by
  obtain ⟨h1, h2⟩ := h
  constructor
  · intro t ht
    have := h1 (t + 1) (by simpa using Nat.succ_lt_succ ht)
    simpa using this
  · intro t ht
    have := h2 (t + 1) (by simp only [List.length_cons]; omega)
    simpa using this

theorem sepsOK_tail {recs : List record_t} {e iv : Nat × Nat}
    {es ivs : List (Nat × Nat)}
    (h : SepsOK recs (e :: es) (iv :: ivs)) : SepsOK recs es ivs := by
  obtain ⟨h1, h2⟩ := h
  constructor
  · simpa using h1
  · intro t ht
    have := h2 (t + 1) (by simp only [List.length_cons]; omega)
    simpa using this

theorem ivChain_start_mono {n : Nat} {ivs : List (Nat × Nat)} (h : IvChain n ivs) :
    ∀ t d, t + d < ivs.length →
      (ivs.getD t (0, 0)).1 ≤ (ivs.getD (t + d) (0, 0)).1 := by
  intro t d
  induction d with
  | zero => intro _; exact Nat.le_refl _
  | succ m ih =>
      intro hd
      have h1 := ih (by omega)
      have h2 := h.2 (t + m) (by omega)
      have h3 := (h.1 (t + m) (by omega)).1
      have : t + (m + 1) = (t + m) + 1 := by omega
      rw [this, ← h2]
      omega

/--
Child selection within one index node.  If the node's first interval starts
at or before the globally first matching record (and the target lies inside
the node's span, or the node is the rightmost of its level), the chosen
child's interval again has this property one level down.
-/
theorem chooseChild_good
    (cmp : Nat → Nat → Bool) (x : Nat) {recs : List record_t}
    (hsorted : recs.Pairwise (fun r s => r.key ≤ s.key))
    (hmono : ∀ a b : Nat, a ≤ b → cmp x b = false → cmp x a = false) :
    ∀ (ces civs : List (Nat × Nat)) (lastFlag : Prop),
      IvChain recs.length civs → SepsOK recs ces civs → ces ≠ [] →
      (civs.getD 0 (0, 0)).1 ≤ recs.findIdx (fun r => cmp x r.key) →
      (recs.findIdx (fun r => cmp x r.key) < (civs.getD (civs.length - 1) (0, 0)).2
        ∨ lastFlag) →
      ∃ j, j < ces.length ∧ chooseChild cmp x ces = some ((ces.getD j (0, 0)).2)
        ∧ (civs.getD j (0, 0)).1 ≤ recs.findIdx (fun r => cmp x r.key)
        ∧ (recs.findIdx (fun r => cmp x r.key) < (civs.getD j (0, 0)).2
            ∨ (j = ces.length - 1 ∧ lastFlag)) := by
  intro ces
  induction ces with
  | nil => intro civs lastFlag _ _ hne _ _; exact absurd rfl hne
  | cons c cs ih =>
      intro civs lastFlag hiv hsep hne hstart hlast
      have hlen : (c :: cs).length = civs.length := hsep.1
      cases cs with
      | nil =>
          -- single remaining child: chosen unconditionally
          refine ⟨0, by simp, ?_, by simpa using hstart, ?_⟩
          · simp [chooseChild]
          · rcases hlast with hfin | hflag
            · left
              have : civs.length - 1 = 0 := by
                simp only [List.length_cons, List.length_nil] at hlen
                omega
              rw [this] at hfin
              exact hfin
            · right; exact ⟨rfl, hflag⟩
      | cons c2 rest =>
          cases civs with
          | nil => simp at hlen
          | cons iv ivs =>
              have hsep0 := hsep.2 0 (by simp only [List.length_cons]; omega)
              simp only [List.getD_cons_zero] at hsep0
              have hiv0 := hiv.1 0 (by simp only [List.length_cons]; omega)
              simp only [List.getD_cons_zero] at hiv0
              by_cases hc : cmp x c.1 = true
              · -- descend into the first child
                refine ⟨0, by simp, ?_, by simpa using hstart, ?_⟩
                · simp [chooseChild, hc]
                · left
                  simp only [List.getD_cons_zero]
                  have hkey : cmp x (recs.getD (iv.2 - 1) defaultRecord).key = true := by
                    rw [← hsep0]; exact hc
                  have hle := findIdx_le_of_true_at (p := fun r => cmp x r.key)
                    (i := iv.2 - 1) (by omega) hkey
                  omega
              · -- first separator too small: the target lies beyond this child
                have hkey : cmp x (recs.getD (iv.2 - 1) defaultRecord).key = false := by
                  rw [← hsep0]; simpa using hc
                have hbelow : ∀ i, i < iv.2 →
                    (fun r => cmp x r.key) (recs.getD i defaultRecord) = false := by
                  intro i hi
                  exact hmono _ _ (sorted_key_mono hsorted (by omega) (by omega)) hkey
                have hT : iv.2 ≤ recs.findIdx (fun r => cmp x r.key) :=
                  findIdx_ge_of_false_below (by omega) hbelow
                have hchain := hiv.2 0 (by
                  simp only [List.length_cons] at hlen ⊢
                  omega)
                simp only [List.getD_cons_zero, List.getD_cons_succ] at hchain
                obtain ⟨j, hj1, hj2, hj3, hj4⟩ := ih ivs lastFlag (ivChain_tail hiv)
                  (sepsOK_tail hsep) (by simp)
                  (by rw [← hchain]; exact hT)
                  (by
                    rcases hlast with hfin | hflag
                    · left
                      have hl2 : (iv :: ivs).length - 1 = (ivs.length - 1) + 1 := by
                        simp only [List.length_cons, List.length_nil] at hlen ⊢
                        omega
                      rw [hl2] at hfin
                      simpa using hfin
                    · right; exact hflag)
                refine ⟨j + 1, by simpa using Nat.succ_lt_succ hj1, ?_, ?_, ?_⟩
                · simp only [chooseChild, if_neg hc]
                  simpa using hj2
                · simpa using hj3
                · rcases hj4 with hfin | ⟨hjl, hflag⟩
                  · left; simpa using hfin
                  · right
                    constructor
                    · simp only [List.length_cons] at hjl ⊢
                      omega
                    · exact hflag

/-- The entry list a level contributes to the level above it. -/
def levelEntries (F : Nat) (lvl : List (List (Nat × Nat))) : List (Nat × Nat) :=
  lvl.enum.map (fun p => (nodeLastKey F p.2, p.1))

theorem nextLevel_eq (F : Nat) (lvl : List (List (Nat × Nat))) :
    nextLevel F lvl = chunkF F (levelEntries F lvl) := rfl

/-- The record intervals of the nodes of a level, from the entry intervals. -/
def upIvs (F : Nat) (ivs : List (Nat × Nat)) (numNodes : Nat) : List (Nat × Nat) :=
  (List.range numNodes).map (fun u =>
    ((ivs.getD (u * F) (0, 0)).1,
     (ivs.getD (min ((u + 1) * F) ivs.length - 1) (0, 0)).2))

theorem getD_drop_take {α : Type} (l : List α) (d : α) (s k j : Nat)
    (hj : j < k) (hl : s + j < l.length) :
    ((l.drop s).take k).getD j d = l.getD (s + j) d := by
  have h1 : j < ((l.drop s).take k).length := by
    simp only [List.length_take, List.length_drop]
    omega
  rw [getD_eq_getElem_of_lt _ _ h1, getD_eq_getElem_of_lt _ _ hl]
  rw [List.getElem_take, List.getElem_drop]

theorem getLastD_eq_getD {α : Type} (l : List α) (d : α) :
    l.getLastD d = l.getD (l.length - 1) d := by
  cases l with
  | nil => rfl
  | cons a as =>
      have hlen : (a :: as).length - 1 < (a :: as).length := by simp
      rw [getD_eq_getElem_of_lt _ _ hlen]
      rw [List.getLastD_eq_getLast?, List.getLast?_eq_getElem?]
      simp

theorem levelEntries_getD {F : Nat} {lvl : List (List (Nat × Nat))} {u : Nat}
    (hu : u < lvl.length) :
    (levelEntries F lvl).getD u (0, 0) = (nodeLastKey F (lvl.getD u []), u) := by
  unfold levelEntries
  have h1 : u < (lvl.enum.map (fun p => (nodeLastKey F p.2, p.1))).length := by
    simpa using hu
  rw [getD_eq_getElem_of_lt _ _ h1]
  rw [List.getElem_map, List.getElem_enum]
  rw [getD_eq_getElem_of_lt _ _ hu]

theorem levelEntries_length (F : Nat) (lvl : List (List (Nat × Nat))) :
    (levelEntries F lvl).length = lvl.length := by
  simp [levelEntries]

/-- One bottom-up level step preserves the interval and separator
disciplines. -/
theorem upLevel_props {F : Nat} (hF : 1 ≤ F) {recs : List record_t}
    {es ivs : List (Nat × Nat)}
    (hiv : IvChain recs.length ivs) (hsep : SepsOK recs es ivs) :
    IvChain recs.length (upIvs F ivs (chunkF F es).length)
    ∧ SepsOK recs (levelEntries F (chunkF F es)) (upIvs F ivs (chunkF F es).length) := by
  have hlen : es.length = ivs.length := hsep.1
  have hN : ∀ u, u < (chunkF F es).length ↔ u * F < es.length :=
    fun u => chunkF_length_iff hF es u
  have hupGet : ∀ u, u < (chunkF F es).length →
      (upIvs F ivs (chunkF F es).length).getD u (0, 0)
        = ((ivs.getD (u * F) (0, 0)).1,
           (ivs.getD (min ((u + 1) * F) ivs.length - 1) (0, 0)).2) := by
    intro u hu
    unfold upIvs
    have h1 : u < ((List.range (chunkF F es).length).map (fun u =>
        ((ivs.getD (u * F) (0, 0)).1,
         (ivs.getD (min ((u + 1) * F) ivs.length - 1) (0, 0)).2))).length := by
      simpa using hu
    rw [getD_eq_getElem_of_lt _ _ h1, List.getElem_map, List.getElem_range]
  have huplen : (upIvs F ivs (chunkF F es).length).length = (chunkF F es).length := by
    simp [upIvs]
  have hmul : ∀ u : Nat, (u + 1) * F = u * F + F := fun u => by ring
  constructor
  · constructor
    · intro u hu
      rw [huplen] at hu
      rw [hupGet u hu]
      have huF : u * F < ivs.length := by rw [← hlen]; exact (hN u).mp hu
      have hmuval : min ((u + 1) * F) ivs.length - 1 < ivs.length := by
        have := hmul u
        omega
      have hge : u * F ≤ min ((u + 1) * F) ivs.length - 1 := by
        have := hmul u
        omega
      have hmono := ivChain_start_mono hiv (u * F)
        (min ((u + 1) * F) ivs.length - 1 - u * F) (by omega)
      have harith : u * F + (min ((u + 1) * F) ivs.length - 1 - u * F)
          = min ((u + 1) * F) ivs.length - 1 := by omega
      rw [harith] at hmono
      have hend := hiv.1 (min ((u + 1) * F) ivs.length - 1) hmuval
      exact ⟨by omega, hend.2⟩
    · intro u hu
      rw [huplen] at hu
      rw [hupGet u (by omega), hupGet (u + 1) hu]
      have hu1F : (u + 1) * F < es.length := (hN (u + 1)).mp hu
      have := hmul u
      have hmin : min ((u + 1) * F) ivs.length = (u + 1) * F := by
        rw [← hlen] at *
        omega
      rw [hmin]
      have hchain := hiv.2 ((u + 1) * F - 1) (by rw [← hlen]; omega)
      have harith : ((u + 1) * F - 1) + 1 = (u + 1) * F := by omega
      rw [harith] at hchain
      simp only
      exact hchain
  · constructor
    · rw [levelEntries_length, huplen]
    · intro u hu
      rw [levelEntries_length] at hu
      have huN : u < (chunkF F es).length := by omega
      rw [levelEntries_getD huN, hupGet u huN]
      have hu1F : (u + 1) * F < es.length := by
        have h2 := (hN (u + 1)).mp hu
        exact h2
      have huF : u * F < es.length := by
        have := hmul u
        omega
      have hnode : (chunkF F es).getD u [] = (es.drop (u * F)).take F :=
        chunkF_getD hF es u huF
      have hnodelen : ((es.drop (u * F)).take F).length = F := by
        simp only [List.length_take, List.length_drop]
        have := hmul u
        omega
      rw [hnode]
      unfold nodeLastKey
      rw [if_pos hnodelen, getLastD_eq_getD, hnodelen]
      have hgd : ((es.drop (u * F)).take F).getD (F - 1) (0, 0)
          = es.getD (u * F + (F - 1)) (0, 0) := by
        apply getD_drop_take
        · omega
        · have := hmul u
          omega
      rw [hgd]
      have hidx : min ((u + 1) * F) ivs.length - 1 = u * F + (F - 1) := by
        have h1 := hmul u
        have h2 : (u + 1) * F < ivs.length := by omega
        omega
      rw [hidx]
      have hsep2 := hsep.2 (u * F + (F - 1)) (by
        have := hmul u
        omega)
      simp only
      exact hsep2

theorem upIvs_getD {F : Nat} {ivs : List (Nat × Nat)} {N u : Nat} (hu : u < N) :
    (upIvs F ivs N).getD u (0, 0)
      = ((ivs.getD (u * F) (0, 0)).1,
         (ivs.getD (min ((u + 1) * F) ivs.length - 1) (0, 0)).2) := by
  unfold upIvs
  have h1 : u < ((List.range N).map (fun u =>
      ((ivs.getD (u * F) (0, 0)).1,
       (ivs.getD (min ((u + 1) * F) ivs.length - 1) (0, 0)).2))).length := by
    simpa using hu
  rw [getD_eq_getElem_of_lt _ _ h1, List.getElem_map, List.getElem_range]

theorem ivChain_slice {n : Nat} {ivs : List (Nat × Nat)} (h : IvChain n ivs)
    (s k : Nat) : IvChain n ((ivs.drop s).take k) := by
  have hslen : ((ivs.drop s).take k).length = min k (ivs.length - s) := by
    simp [List.length_take, List.length_drop]
  constructor
  · intro t ht
    rw [hslen] at ht
    rw [getD_drop_take _ _ s k t (by omega) (by omega)]
    exact h.1 (s + t) (by omega)
  · intro t ht
    rw [hslen] at ht
    rw [getD_drop_take _ _ s k t (by omega) (by omega),
      getD_drop_take _ _ s k (t + 1) (by omega) (by omega)]
    have := h.2 (s + t) (by omega)
    simpa [Nat.add_assoc] using this

theorem sepsOK_slice {recs : List record_t} {es ivs : List (Nat × Nat)}
    (h : SepsOK recs es ivs) (s k : Nat) :
    SepsOK recs ((es.drop s).take k) ((ivs.drop s).take k) := by
  have hlen := h.1
  constructor
  · simp [List.length_take, List.length_drop, hlen]
  · intro t ht
    have hslen : ((es.drop s).take k).length = min k (es.length - s) := by
      simp [List.length_take, List.length_drop]
    rw [hslen] at ht
    rw [getD_drop_take _ _ s k t (by omega) (by omega),
      getD_drop_take _ _ s k t (by omega) (by omega)]
    exact h.2 (s + t) (by omega)

theorem descendLevels_append (cmp : Nat → Nat → Bool) (x : Nat)
    (A B : List (List (List (Nat × Nat)))) (i : Nat) :
    descendLevels cmp x (A ++ B) i = descendLevels cmp x B (descendLevels cmp x A i) := by
  induction A generalizing i with
  | nil => rfl
  | cons lvl rest ih =>
      simp only [List.cons_append, descendLevels]
      exact ih _

/-- Descending a directory consisting of one single index node. -/
theorem descend_single_good {F : Nat} (hF : 1 ≤ F)
    (cmp : Nat → Nat → Bool) (x : Nat) {recs : List record_t}
    (hsorted : recs.Pairwise (fun r s => r.key ≤ s.key))
    (hmono : ∀ a b : Nat, a ≤ b → cmp x b = false → cmp x a = false)
    (es ivs : List (Nat × Nat))
    (hiv : IvChain recs.length ivs) (hsep : SepsOK recs es ivs) (hne : es ≠ [])
    (hstart : (ivs.getD 0 (0, 0)).1 ≤ recs.findIdx (fun r => cmp x r.key))
    (hone : (chunkF F es).length ≤ 1) :
    ∃ t, t < es.length ∧
      descendLevels cmp x [chunkF F es] 0 = (es.getD t (0, 0)).2
      ∧ (ivs.getD t (0, 0)).1 ≤ recs.findIdx (fun r => cmp x r.key)
      ∧ (recs.findIdx (fun r => cmp x r.key) < (ivs.getD t (0, 0)).2
          ∨ t = es.length - 1) := by
  have hlen0 : 0 < es.length := by
    cases es with
    | nil => exact absurd rfl hne
    | cons a l => simp
  have hlenF : es.length ≤ F := by
    by_contra hgt
    push_neg at hgt
    have : 1 < (chunkF F es).length := by
      rw [chunkF_length_iff hF es 1]
      omega
    omega
  have hnode : (chunkF F es).getD 0 [] = es := by
    have := chunkF_getD hF es 0 (by simpa using hlen0)
    simpa [List.take_of_length_le hlenF] using this
  obtain ⟨j, hj1, hj2, hj3, hj4⟩ := chooseChild_good cmp x hsorted hmono es ivs True
    hiv hsep hne hstart (Or.inr trivial)
  refine ⟨j, hj1, ?_, hj3, ?_⟩
  · simp only [descendLevels, hnode, hj2, Option.getD_some]
  · rcases hj4 with hfin | ⟨hjl, _⟩
    · left; exact hfin
    · right; exact hjl

/--
Descending the full directory built above a well-disciplined entry level
lands on an entry whose interval start is at or before the globally first
matching record, and strictly inside the record array.
-/
theorem descend_stack_good {F : Nat} (hF : 2 ≤ F)
    (cmp : Nat → Nat → Bool) (x : Nat) {recs : List record_t}
    (hsorted : recs.Pairwise (fun r s => r.key ≤ s.key))
    (hmono : ∀ a b : Nat, a ≤ b → cmp x b = false → cmp x a = false) :
    ∀ (fuel : Nat) (es ivs : List (Nat × Nat)),
      IvChain recs.length ivs → SepsOK recs es ivs → es ≠ [] →
      (ivs.getD 0 (0, 0)).1 ≤ recs.findIdx (fun r => cmp x r.key) →
      (chunkF F es).length ≤ fuel + 1 →
      ∃ t, t < es.length ∧
        descendLevels cmp x ((buildLevelsGo F fuel (chunkF F es)).reverse) 0
          = (es.getD t (0, 0)).2
        ∧ (ivs.getD t (0, 0)).1 ≤ recs.findIdx (fun r => cmp x r.key)
        ∧ (recs.findIdx (fun r => cmp x r.key) < (ivs.getD t (0, 0)).2
            ∨ t = es.length - 1) := by
  intro fuel
  induction fuel with
  | zero =>
      intro es ivs hiv hsep hne hstart hfuel
      exact descend_single_good (by omega) cmp x hsorted hmono es ivs hiv hsep hne
        hstart hfuel
  | succ n ih =>
      intro es ivs hiv hsep hne hstart hfuel
      by_cases hone : (chunkF F es).length ≤ 1
      · have hbuild : buildLevelsGo F (n + 1) (chunkF F es) = [chunkF F es] := by
          unfold buildLevelsGo
          rw [if_pos hone]
        rw [hbuild]
        exact descend_single_good (by omega) cmp x hsorted hmono es ivs hiv hsep hne
          hstart hone
      · push_neg at hone
        have hN2 : 2 ≤ (chunkF F es).length := hone
        have hbuild : buildLevelsGo F (n + 1) (chunkF F es)
            = chunkF F es :: buildLevelsGo F n (nextLevel F (chunkF F es)) := by
          conv_lhs => unfold buildLevelsGo
          rw [if_neg (by omega)]
        set N := (chunkF F es).length with hNdef
        set es' := levelEntries F (chunkF F es) with hes'
        set ivs' := upIvs F ivs N with hivs'
        have hlen' : es'.length = N := by
          rw [hes', levelEntries_length]
        have hprops := upLevel_props (F := F) (by omega) hiv hsep
        have hlenes : es.length = ivs.length := hsep.1
        -- the next level is at most half the size
        have hshrink : (chunkF F es').length ≤ n + 1 := by
          have hmul2 : (N - 1) * 2 ≤ (N - 1) * F := Nat.mul_le_mul_left (N - 1) hF
          have hnotlt : ¬((N - 1) * F < es'.length) := by
            rw [hlen']
            intro hlt
            omega
          have := (chunkF_length_iff (by omega) es' (N - 1)).not.mpr hnotlt
          push_neg at this
          omega
        have hne' : es' ≠ [] := by
          intro hnil
          rw [hnil] at hlen'
          simp at hlen'
          omega
        have hstart' : (ivs'.getD 0 (0, 0)).1 ≤ recs.findIdx (fun r => cmp x r.key) := by
          rw [hivs', upIvs_getD (by omega : 0 < N)]
          simpa using hstart
        obtain ⟨u, hu1, hu2, hu3, hu4⟩ := ih es' ivs' hprops.1 hprops.2 hne' hstart' hshrink
        rw [hlen'] at hu1
        have huval : (es'.getD u (0, 0)).2 = u := by
          rw [hes', levelEntries_getD (by omega : u < (chunkF F es).length)]
        have hivs'u := @upIvs_getD F ivs N u hu1
        rw [← hivs'] at hivs'u
        -- slice of the bottom level corresponding to node u
        have huF : u * F < es.length := (chunkF_length_iff (by omega) es u).mp hu1
        have hmulu : (u + 1) * F = u * F + F := by ring
        have hnode : (chunkF F es).getD u [] = (es.drop (u * F)).take F :=
          chunkF_getD (by omega) es u huF
        have hslicelen : ((es.drop (u * F)).take F).length = min F (es.length - u * F) := by
          simp [List.length_take, List.length_drop]
        have hslne : (es.drop (u * F)).take F ≠ [] := by
          intro hnil
          have := congrArg List.length hnil
          rw [hslicelen] at this
          simp at this
          omega
        obtain ⟨j, hj1, hj2, hj3, hj4⟩ := chooseChild_good cmp x hsorted hmono
          ((es.drop (u * F)).take F) ((ivs.drop (u * F)).take F) (u = N - 1)
          (ivChain_slice hiv (u * F) F) (sepsOK_slice hsep (u * F) F) hslne
          (by
            rw [getD_drop_take _ _ (u * F) F 0 (by omega) (by omega)]
            rw [hivs'u] at hu3
            simpa using hu3)
          (by
            rcases hu4 with hfin | hul
            · left
              have hslicelen2 : ((ivs.drop (u * F)).take F).length
                  = min F (ivs.length - u * F) := by
                simp [List.length_take, List.length_drop]
              rw [hslicelen2,
                getD_drop_take _ _ (u * F) F (min F (ivs.length - u * F) - 1)
                  (by omega) (by omega)]
              rw [hivs'u] at hfin
              have harith : u * F + (min F (ivs.length - u * F) - 1)
                  = min ((u + 1) * F) ivs.length - 1 := by
                omega
              rw [harith]
              simpa using hfin
            · right
              rw [hlen'] at hul
              exact hul)
        rw [hslicelen] at hj1
        refine ⟨u * F + j, by omega, ?_, ?_, ?_⟩
        · rw [hbuild]
          simp only [List.reverse_cons]
          rw [descendLevels_append, nextLevel_eq, ← hes']
          rw [hu2, huval]
          simp only [descendLevels, hnode, hj2, Option.getD_some]
          rw [getD_drop_take _ _ (u * F) F j (by omega) (by omega)]
        · rw [getD_drop_take _ _ (u * F) F j (by omega) (by omega)] at hj3
          exact hj3
        · rcases hj4 with hfin | ⟨hjl, hul⟩
          · left
            rw [getD_drop_take _ _ (u * F) F j (by omega) (by omega)] at hfin
            exact hfin
          · right
            -- the rightmost entry of the rightmost node is the last entry
            have hnolast : ¬((u + 1) * F < es.length) := by
              intro hlt
              have := (chunkF_length_iff (F := F) (by omega) es (u + 1)).mpr hlt
              omega
            rw [hslicelen] at hjl
            omega

theorem leafChildrenGo_spec {recs : List record_t} {L : Nat} (hL : 1 ≤ L) :
    ∀ (fuel b : Nat), recs.length ≤ b + fuel →
      (∀ t, (t < (leafChildrenGo recs L fuel b).length ↔ b + t * L < recs.length))
      ∧ (∀ t, b + t * L < recs.length →
          (leafChildrenGo recs L fuel b).getD t (0, 0)
            = (groupSepKey recs L (b + t * L), b + t * L)) := by
  intro fuel
  induction fuel with
  | zero =>
      intro b hb
      constructor
      · intro t
        simp only [leafChildrenGo, List.length_nil]
        constructor
        · intro h; omega
        · intro h
          have : b + t * L < b := by omega
          omega
      · intro t ht
        have : t * L < 0 := by omega
        omega
  | succ m ih =>
      intro b hb
      by_cases hbn : b < recs.length
      · have hrec := ih (b + L) (by omega)
        constructor
        · intro t
          cases t with
          | zero =>
              simp only [leafChildrenGo, if_pos hbn, List.length_cons]
              constructor
              · intro _; simpa using hbn
              · intro _; omega
          | succ s =>
              simp only [leafChildrenGo, if_pos hbn, List.length_cons]
              have h1 := (hrec.1 s)
              have harith : b + L + s * L = b + (s + 1) * L := by ring
              rw [harith] at h1
              constructor
              · intro h; exact h1.mp (by omega)
              · intro h
                have := h1.mpr h
                omega
        · intro t ht
          cases t with
          | zero =>
              simp only [leafChildrenGo, if_pos hbn, List.getD_cons_zero]
              simp
          | succ s =>
              simp only [leafChildrenGo, if_pos hbn, List.getD_cons_succ]
              have harith : b + L + s * L = b + (s + 1) * L := by ring
              have h2 := hrec.2 s (by rw [harith]; exact ht)
              rw [harith] at h2
              exact h2
      · push_neg at hbn
        constructor
        · intro t
          simp only [leafChildrenGo, if_neg (by omega : ¬b < recs.length), List.length_nil]
          constructor
          · intro h; omega
          · intro h
            have : b + t * L < b + t * L := by
              calc b + t * L < recs.length := h
                _ ≤ b := hbn
                _ ≤ b + t * L := by omega
            omega
        · intro t ht
          have : recs.length ≤ b + t * L := by omega
          omega

/-- The record interval of each leaf group. -/
def leafIvs (recs : List record_t) (L : Nat) : List (Nat × Nat) :=
  (List.range (leafChildren recs L).length).map
    (fun t => (t * L, min ((t + 1) * L) recs.length))

theorem leafIvs_getD {recs : List record_t} {L t : Nat}
    (ht : t < (leafChildren recs L).length) :
    (leafIvs recs L).getD t (0, 0) = (t * L, min ((t + 1) * L) recs.length) := by
  unfold leafIvs
  have h1 : t < ((List.range (leafChildren recs L).length).map
      (fun t => (t * L, min ((t + 1) * L) recs.length))).length := by
    simpa using ht
  rw [getD_eq_getElem_of_lt _ _ h1, List.getElem_map, List.getElem_range]

theorem leaf_level_props {recs : List record_t} {L : Nat} (hL : 1 ≤ L) :
    IvChain recs.length (leafIvs recs L)
    ∧ SepsOK recs (leafChildren recs L) (leafIvs recs L)
    ∧ (∀ t, t < (leafChildren recs L).length →
        ((leafChildren recs L).getD t (0, 0)).2 = t * L)
    ∧ (∀ t, t < (leafChildren recs L).length ↔ t * L < recs.length) := by
  have hspec := @leafChildrenGo_spec recs L hL recs.length 0 (by omega)
  have hiff : ∀ t, t < (leafChildren recs L).length ↔ t * L < recs.length := by
    intro t
    have := hspec.1 t
    simpa [leafChildren] using this
  have hget : ∀ t, t < (leafChildren recs L).length →
      (leafChildren recs L).getD t (0, 0) = (groupSepKey recs L (t * L), t * L) := by
    intro t ht
    have := hspec.2 t (by simpa using (hiff t).mp ht)
    simpa [leafChildren] using this
  have hleniv : (leafIvs recs L).length = (leafChildren recs L).length := by
    simp [leafIvs]
  refine ⟨⟨?_, ?_⟩, ⟨by rw [hleniv], ?_⟩, ?_, hiff⟩
  · intro t ht
    rw [hleniv] at ht
    rw [leafIvs_getD ht]
    have htL := (hiff t).mp ht
    have : (t + 1) * L = t * L + L := by ring
    exact ⟨by omega, by omega⟩
  · intro t ht
    rw [hleniv] at ht
    rw [leafIvs_getD (by omega), leafIvs_getD ht]
    have ht1L := (hiff (t + 1)).mp ht
    have : (t + 1) * L = t * L + L := by ring
    simp only
    omega
  · intro t ht
    rw [hget t (by omega), leafIvs_getD (by omega)]
    have ht1L := (hiff (t + 1)).mp ht
    have harith : (t + 1) * L = t * L + L := by ring
    simp only
    unfold groupSepKey
    congr 2
    omega
  · intro t ht
    rw [hget t ht]

theorem leafChildren_ne_nil {recs : List record_t} {L : Nat} (hL : 1 ≤ L)
    (hne : recs ≠ []) : leafChildren recs L ≠ [] := by
  have hlen : 0 < recs.length := by
    cases recs with
    | nil => exact absurd rfl hne
    | cons a l => simp
  intro hnil
  have hiff := (@leaf_level_props recs L hL).2.2.2 0
  rw [hnil] at hiff
  have h0 : (0 : Nat) * L < recs.length := by omega
  have hcontra := hiff.mpr h0
  simp at hcontra

/-- Core correctness of the descent-plus-scan lookups: for a key-sorted,
non-empty record array they compute the first index whose key satisfies the
comparison (the record count when none does). -/
theorem bound_correct (cmp : Nat → Nat → Bool) (x : Nat) {recs : List record_t}
    (hsorted : recs.Pairwise (fun r s => r.key ≤ s.key)) (hne : recs ≠ [])
    (hmono : ∀ a b : Nat, a ≤ b → cmp x b = false → cmp x a = false) :
    scanFrom (fun r => cmp x r.key) recs
        (descendLevels cmp x (buildISAM recs) 0)
      = recs.findIdx (fun r => cmp x r.key) := by
  have hL : 1 ≤ inmem_isam_leaf_fanout := by decide
  have hprops := @leaf_level_props recs inmem_isam_leaf_fanout hL
  obtain ⟨t, ht1, ht2, ht3, ht4⟩ := descend_stack_good (F := inmem_isam_fanout)
    (by decide) cmp x hsorted hmono
    (chunkF inmem_isam_fanout (leafChildren recs inmem_isam_leaf_fanout)).length
    (leafChildren recs inmem_isam_leaf_fanout)
    (leafIvs recs inmem_isam_leaf_fanout)
    hprops.1 hprops.2.1 (leafChildren_ne_nil hL hne)
    (by
      have h0 : 0 < (leafChildren recs inmem_isam_leaf_fanout).length := by
        have := @leafChildren_ne_nil recs inmem_isam_leaf_fanout hL hne
        cases hlc : leafChildren recs inmem_isam_leaf_fanout with
        | nil => exact absurd hlc this
        | cons a l => simp
      rw [leafIvs_getD h0]
      simp)
    (by omega)
  unfold buildISAM at *
  rw [ht2, hprops.2.2.1 t ht1]
  rw [leafIvs_getD ht1] at ht3
  simp only at ht3
  exact scanFrom_eq_findIdx (t * inmem_isam_leaf_fanout) recs ht3

/--
C6.  For every non-empty run whose record array is sorted ascending by key
and every search key `x`: `get_lower_bound` returns the smallest index whose
record key is `≥ x` (the record count when none exists), and
`get_upper_bound` the smallest index whose record key is `> x` (the record
count when none exists).
-/
theorem isam_bounds_correct (recs : List record_t) (x : Nat)
    (hne : recs ≠ []) (hsorted : recs.Pairwise (fun r s => r.key ≤ s.key)) :
    (get_lower_bound recs x = recs.findIdx (fun r => decide (x ≤ r.key))
      ∧ get_lower_bound recs x ≤ recs.length
      ∧ (∀ j, j < get_lower_bound recs x → (recs.getD j defaultRecord).key < x)
      ∧ (get_lower_bound recs x < recs.length →
          x ≤ (recs.getD (get_lower_bound recs x) defaultRecord).key))
    ∧ (get_upper_bound recs x = recs.findIdx (fun r => decide (x < r.key))
      ∧ get_upper_bound recs x ≤ recs.length
      ∧ (∀ j, j < get_upper_bound recs x → (recs.getD j defaultRecord).key ≤ x)
      ∧ (get_upper_bound recs x < recs.length →
          x < (recs.getD (get_upper_bound recs x) defaultRecord).key)) := by
  have hlow : get_lower_bound recs x = recs.findIdx (fun r => decide (x ≤ r.key)) := by
    unfold get_lower_bound
    exact bound_correct (fun a s => decide (a ≤ s)) x hsorted hne
      (by
        intro a b hab hfalse
        simp only [decide_eq_false_iff_not] at hfalse ⊢
        omega)
  have hup : get_upper_bound recs x = recs.findIdx (fun r => decide (x < r.key)) := by
    unfold get_upper_bound
    exact bound_correct (fun a s => decide (a < s)) x hsorted hne
      (by
        intro a b hab hfalse
        simp only [decide_eq_false_iff_not] at hfalse ⊢
        omega)
  refine ⟨⟨hlow, ?_, ?_, ?_⟩, hup, ?_, ?_, ?_⟩
  · rw [hlow]; exact List.findIdx_le_length _
  · intro j hj
    rw [hlow] at hj
    have := List.not_of_lt_findIdx hj
    have hjlen : j < recs.length := by
      have : recs.findIdx (fun r => decide (x ≤ r.key)) ≤ recs.length := List.findIdx_le_length _
      omega
    rw [← getD_eq_getElem_of_lt recs defaultRecord hjlen] at this
    have h2 := of_decide_eq_false this
    omega
  · intro hlt
    rw [hlow] at hlt ⊢
    have := List.findIdx_getElem (w := hlt)
    rw [← getD_eq_getElem_of_lt recs defaultRecord hlt] at this
    exact of_decide_eq_true this
  · rw [hup]; exact List.findIdx_le_length _
  · intro j hj
    rw [hup] at hj
    have := List.not_of_lt_findIdx hj
    have hjlen : j < recs.length := by
      have : recs.findIdx (fun r => decide (x < r.key)) ≤ recs.length := List.findIdx_le_length _
      omega
    rw [← getD_eq_getElem_of_lt recs defaultRecord hjlen] at this
    have h2 := of_decide_eq_false this
    omega
  · intro hlt
    rw [hup] at hlt ⊢
    have := List.findIdx_getElem (w := hlt)
    rw [← getD_eq_getElem_of_lt recs defaultRecord hlt] at this
    exact of_decide_eq_true this

/-- Witness for C6 on a concrete two-record run. -/
theorem isam_bounds_correct_witness :
    get_lower_bound [⟨1, 1, 0⟩, ⟨3, 3, 0⟩] 2 = 1
    ∧ get_upper_bound [⟨1, 1, 0⟩, ⟨3, 3, 0⟩] 3 = 2
    ∧ get_lower_bound [⟨1, 1, 0⟩, ⟨3, 3, 0⟩] 9 = 2 := by
  have h2 := isam_bounds_correct [⟨1, 1, 0⟩, ⟨3, 3, 0⟩] 2 (by simp) (by decide)
  have h3 := isam_bounds_correct [⟨1, 1, 0⟩, ⟨3, 3, 0⟩] 3 (by simp) (by decide)
  have h9 := isam_bounds_correct [⟨1, 1, 0⟩, ⟨3, 3, 0⟩] 9 (by simp) (by decide)
  refine ⟨?_, ?_, ?_⟩
  · rw [h2.1.1]; decide
  · rw [h3.2.1]; decide
  · rw [h9.1.1]; decide

/-! ### `InMemRun::check_tombstone` and `InMemRun::delete_record` -/

/-- The index at which the scan pointer of `InMemRun::check_tombstone`
stops: starting from `get_lower_bound(key)`, it advances while the current
record is `lt (key, val)`; nothing stops it at the end of the array. -/
def tombstoneScanIdx (recs : List record_t) (k v : Nat) : Nat :=
  scanFrom (fun r => !(r.ltKV k v)) recs (get_lower_bound recs k)

/--
`InMemRun::check_tombstone`: if the lower bound is past the end, return
`false`; otherwise scan and apply `match(key, val, true)` to wherever the
pointer stopped.  The source performs that final match with no bound check;
when the pointer stopped at `m_data + m_reccnt` this is an out-of-bounds
read, modelled here as reading `defaultRecord` (which never matches a
tombstone).
-/
def InMemRun_check_tombstone (recs : List record_t) (k v : Nat) : Bool :=
  if recs.length ≤ get_lower_bound recs k then false
  else (recs.getD (tombstoneScanIdx recs k v) defaultRecord).matchKV k v true

/-- The final match test of `InMemRun::check_tombstone` dereferences the
position one past the end of the record array. -/
def check_tombstone_reads_past_end (recs : List record_t) (k v : Nat) : Bool :=
  decide (get_lower_bound recs k < recs.length)
    && decide (tombstoneScanIdx recs k v = recs.length)

/--
C10 (code bug).  On the run holding the single tombstone `(5, 1)`, the call
`check_tombstone(5, 2)` passes the `idx >= m_reccnt` guard (the lower bound
is 0), every record from the lower-bound position onward compares
`lt (5, 2)`, the scan pointer therefore stops at `m_data + m_reccnt`, and
the final match test is applied one past the end of the record array —
contradicting the claim that the test never reads that position.
-/
theorem check_tombstone_oob_at_failing_input :
    get_lower_bound [⟨5, 1, 1⟩] 5 = 0
    ∧ (∀ j, get_lower_bound [⟨5, 1, 1⟩] 5 ≤ j → j < 1 →
        (([⟨5, 1, 1⟩] : List record_t).getD j defaultRecord).ltKV 5 2 = true)
    ∧ check_tombstone_reads_past_end [⟨5, 1, 1⟩] 5 2 = true := by
  refine ⟨by decide, ?_, by decide⟩
  intro j h1 h2
  interval_cases j
  · decide

/--
`InMemRun::delete_record` (tagged-delete variant): locate the record via
`get_lower_bound`, scan past smaller `(key, value)` pairs, and set the
delete bit in place on a match.  The final match and the in-place write
share `check_tombstone`'s missing bound check; the model reads
`defaultRecord` past the end (`List.set` past the end is a no-op).
-/
def InMemRun_delete_record (recs : List record_t) (k v : Nat) :
    Bool × List record_t :=
  let idx0 := get_lower_bound recs k
  if recs.length ≤ idx0 then (false, recs)
  else
    let idx := scanFrom (fun r => !(r.ltKV k v)) recs idx0
    if (recs.getD idx defaultRecord).matchKV k v false then
      (true, recs.set idx ((recs.getD idx defaultRecord).set_delete_status))
    else (false, recs)

/-! ### `MemoryLevel` (`src/include/lsm/MemoryLevel.h`) and the LSM tree -/

/-- A memory level: the run-slot capacity and the runs present, in append
order (append_mem_table / append_merged_runs fill slots left to right, so
lower indices hold older runs).  Each run is its record array; the paired
bloom filter holds exactly the keys inserted for the run's tombstones at
construction, so it is derived from the run contents (exact-set model). -/
structure MemoryLevel where
  m_cap : Nat
  m_runs : List (List record_t)
deriving DecidableEq, Repr

/-- The per-run tombstone bloom filter contents. -/
def bfLookup (run : List record_t) (k : Nat) : Bool :=
  run.any (fun r => r.is_tombstone && r.key == k)

/-- `MemoryLevel::tombstone_check(run_stop, key, val)`: probe runs
`0 .. run_stop-1` (bloom filter, then the run's `check_tombstone`). -/
def MemoryLevel.tombstone_check (lvl : MemoryLevel) (run_stop : Nat)
    (k v : Nat) : Bool :=
  (lvl.m_runs.take run_stop).any
    (fun run => bfLookup run k && InMemRun_check_tombstone run k v)

/-- `InMemRun::get_record_at`: `nullptr` out of range. -/
def InMemRun_get_record_at (run : List record_t) (idx : Nat) : Option record_t :=
  if idx < run.length then some (run.getD idx defaultRecord) else none

/--
The LSM tree state: the active memtable and the memory levels.  The spec
scopes the engine to the memory-level form (file-system persistence of disk
levels is out of scope; `lsm/IsamTree.h` is not under `src/`), so the model
has `disk_levels` empty throughout and `grow` always creates a memory level.
-/
structure LSMState where
  memtable : MemTable
  memory_levels : List MemoryLevel
deriving DecidableEq, Repr

def defaultLevel : MemoryLevel := ⟨0, []⟩

/--
`LSMTree::is_deleted(record, rid, ...)`, `DELETE_TAGGING = true`.  `rid` is
`none` for `INVALID_RID` (record in the memtable).  For a record in a run,
the source probes each level strictly above `rid.level_idx` with
`tombstone_check(0, ...)` — whose loop `for (i = 0; i < run_stop; ++i)` then
iterates zero times — and finally the record's own level with
`tombstone_check(rid.run_idx + 1, ...)`, i.e. runs `0 .. rid.run_idx`.
-/
def is_deleted (st : LSMState) (record : record_t) (rid : Option (Nat × Nat)) : Bool :=
  if record.get_delete_status then true
  else if st.memtable.check_tombstone record.key record.value then true
  else
    match rid with
    | none => false
    | some (lvl_idx, run_idx) =>
        if (List.range lvl_idx).any (fun lvl =>
            (st.memory_levels.getD lvl defaultLevel).tombstone_check 0
              record.key record.value) then true
        else (st.memory_levels.getD lvl_idx defaultLevel).tombstone_check
              (run_idx + 1) record.key record.value

/--
C3 (code bug).  In the tree whose level 0 holds the single run
`[tombstone (7,7)]` and whose level 1 holds the single run `[live (7,7)]`
(a live record shadowed by a tombstone strictly above it, exactly the
tombstone-ordering layout), `is_deleted` on the live record with
`rid = (level 1, run 0)` returns `false`: the probe of level 0 is
`tombstone_check(0, ...)`, which examines no runs at all — although level 0
does contain the matching tombstone, as probing it with a positive
`run_stop` shows.
-/
theorem is_deleted_misses_upper_level :
    is_deleted
        ⟨MemTable.mk0 0 0, [⟨1, [[⟨7, 7, 1⟩]]⟩, ⟨1, [[⟨7, 7, 0⟩]]⟩]⟩
        ⟨7, 7, 0⟩ (some (1, 0)) = false
    ∧ MemoryLevel.tombstone_check ⟨1, [[⟨7, 7, 1⟩]]⟩ 1 7 7 = true
    ∧ MemoryLevel.tombstone_check ⟨1, [[⟨7, 7, 1⟩]]⟩ 0 7 7 = false := by
  refine ⟨by decide, by decide, by decide⟩

/-! ### `LSMTree::range_sample` (`src/include/lsm/LsmTree.h`, the
`LSM_REJ_SAMPLE = true` configuration) -/

/-- A `SampleRange` descriptor. -/
structure SampleRange where
  level_idx : Nat
  run_idx : Nat
  low : Nat
  high : Nat
deriving DecidableEq, Repr

/-- `MemoryLevel::get_sample_ranges`: one descriptor per run, bounded by
`get_lower_bound(low)` and `get_upper_bound(high)`; the weight contributed
is `high_pos - low_pos`. -/
def MemoryLevel.get_sample_ranges (lvl : MemoryLevel) (lvl_idx : Nat)
    (lo hi : Nat) : List SampleRange :=
  (List.range lvl.m_runs.length).map (fun i =>
    ⟨lvl_idx, i, get_lower_bound (lvl.m_runs.getD i []) lo,
      get_upper_bound (lvl.m_runs.getD i []) hi⟩)

/-- `gsl_rng_uniform_int(rng, n)`: a value in `[0, n-1]`.  `n = 0` is
library misuse in GSL (division by zero); the model then returns the raw
draw (`u % 0 = u`), a case no theorem below relies on. -/
def gslUniformInt (u n : Nat) : Nat := u % n

/-- Modelled from the spec: `ds/Alias.h` is not under `src/`.  The alias
structure returns a descriptor index `< n` for every draw; none of the
claims depends on its distribution, so the model spreads the raw draw over
the indices. -/
def aliasGet (n u : Nat) : Nat := u % n

/-- `memtable_cutoff = memtable->get_record_count() - 1` in `size_t`
arithmetic (underflows to `2^64 - 1` on an empty memtable). -/
def memtable_cutoff (mt : MemTable) : Nat := (mt.m_reccnt + (2 ^ 64 - 1)) % 2 ^ 64

/-- All level descriptors, in level order. -/
def sampleRanges (st : LSMState) (lo hi : Nat) : List SampleRange :=
  (st.memory_levels.enum.map (fun p => p.2.get_sample_ranges p.1 lo hi)).flatten

/-- The per-descriptor record counts: the memtable (index 0), then the
level descriptors.  (`std::accumulate(..., 0)` accumulates into `int`; the
truncation is not modelled, counts being far below `2^31` in any realisable
configuration.) -/
def record_counts (st : LSMState) (lo hi : Nat) : List Nat :=
  (memtable_cutoff st.memtable + 1) % 2 ^ 64
    :: (sampleRanges st lo hi).map (fun r => r.high - r.low)

def total_records (st : LSMState) (lo hi : Nat) : Nat :=
  (record_counts st lo hi).sum

/-- The `rejection` test: tombstone, out of `[lower, upper]`, or deleted. -/
def rejection (st : LSMState) (record : record_t) (rid : Option (Nat × Nat))
    (lower upper : Nat) : Bool :=
  if record.is_tombstone then true
  else if record.key < lower || upper < record.key then true
  else if is_deleted st record rid then true
  else false

/-- How many of the `draws` alias picks starting at stream position `pos`
fall on descriptor `i`. -/
def drawCount (n : Nat) (stream : Nat → Nat) (pos draws i : Nat) : Nat :=
  ((List.range draws).filter (fun j => aliasGet n (stream (pos + j)) = i)).length

/--
Draw `count` candidates for one descriptor: each consumes one stream value,
reduced with `gsl_rng_uniform_int` modulo `modn`, fetched with `fetch`, and
passed through `add_to_sample` (`!record || rejection(...)` rejects).
Returns accepted records (in draw order), the rejection count, and the
stream position after the batch.
-/
def processDraws (st : LSMState) (lo hi : Nat) (rid : Option (Nat × Nat))
    (fetch : Nat → Option record_t) (modn : Nat) (stream : Nat → Nat) :
    Nat → Nat → List record_t × Nat × Nat
  | 0, pos => ([], 0, pos)
  | c + 1, pos =>
      let idx := gslUniformInt (stream pos) modn
      let rest := processDraws st lo hi rid fetch modn stream c (pos + 1)
      match fetch idx with
      | some r =>
          if rejection st r rid lo hi then (rest.1, rest.2.1 + 1, rest.2.2)
          else (r :: rest.1, rest.2.1, rest.2.2)
      | none => (rest.1, rest.2.1 + 1, rest.2.2)

/-- Draw the tallied candidates of every level descriptor, in order. -/
def processRanges (st : LSMState) (lo hi : Nat) (stream : Nat → Nat) :
    List (SampleRange × Nat) → Nat → List record_t × Nat × Nat
  | [], pos => ([], 0, pos)
  | (rg, tally) :: rest, pos =>
      let run := (st.memory_levels.getD rg.level_idx defaultLevel).m_runs.getD rg.run_idx []
      let here := processDraws st lo hi (some (rg.level_idx, rg.run_idx))
          (fun idx => InMemRun_get_record_at run (idx + rg.low))
          (rg.high - rg.low) stream tally pos
      let after := processRanges st lo hi stream rest here.2.2
      (here.1 ++ after.1, here.2.1 + after.2.1, after.2.2)

/--
One pass of the rejection loop: tally `rejections` alias draws over the
descriptors, then draw the tallied number of candidates from the memtable
(descriptor 0, uniform below the cutoff, records fetched by unchecked
pointer arithmetic) and from each level descriptor in order.
-/
def samplePass (st : LSMState) (lo hi : Nat) (stream : Nat → Nat)
    (rejections pos : Nat) : List record_t × Nat × Nat :=
  let n := (record_counts st lo hi).length
  let tallies := (List.range n).map (drawCount n stream pos rejections)
  let pos1 := pos + rejections
  let mem := processDraws st lo hi none
      (fun idx => some (st.memtable.get_record_at idx))
      (memtable_cutoff st.memtable) stream (tallies.getD 0 0) pos1
  let lvls := processRanges st lo hi stream
      ((sampleRanges st lo hi).zip (tallies.drop 1)) mem.2.2
  (mem.1 ++ lvls.1, mem.2.1 + lvls.2.1, lvls.2.2)

/-- The do-while rejection loop; `fuel` bounds the number of passes, `none`
meaning the loop is still running when it runs out. -/
def rsLoop (st : LSMState) (lo hi k : Nat) (stream : Nat → Nat) :
    Nat → Nat → Nat → List record_t → Option (List record_t)
  | 0, _, _, _ => none
  | fuel + 1, rejections, pos, acc =>
      let res := samplePass st lo hi stream rejections pos
      let acc' := acc ++ res.1
      if acc'.length < k then rsLoop st lo hi k stream fuel res.2.1 res.2.2 acc'
      else some acc'

/--
`LSMTree::range_sample` for the in-memory engine: collect the descriptors,
bail out when the total weight is zero, otherwise run the rejection loop
seeded as though every one of the `sample_sz` draws of a previous pass had
been rejected.  `some out` means the call returned with `out` written to
the sample set; `none` means it had not returned within `fuel` passes.
-/
def range_sample (st : LSMState) (lo hi k : Nat) (stream : Nat → Nat)
    (fuel : Nat) : Option (List record_t) :=
  if total_records st lo hi = 0 then some []
  else rsLoop st lo hi k stream fuel k 0 []

/-- A record that `add_to_sample` accepted from some origin. -/
def validSample (st : LSMState) (lo hi : Nat) (r : record_t) : Prop :=
  ∃ rid, rejection st r rid lo hi = false

theorem processDraws_spec (st : LSMState) (lo hi : Nat) (rid : Option (Nat × Nat))
    (fetch : Nat → Option record_t) (modn : Nat) (stream : Nat → Nat) :
    ∀ (c pos : Nat),
      (processDraws st lo hi rid fetch modn stream c pos).1.length
          + (processDraws st lo hi rid fetch modn stream c pos).2.1 = c
      ∧ ∀ r ∈ (processDraws st lo hi rid fetch modn stream c pos).1,
          rejection st r rid lo hi = false := by
  intro c
  induction c with
  | zero =>
      intro pos
      refine ⟨rfl, ?_⟩
      intro r hr
      simp [processDraws] at hr
  | succ m ih =>
      intro pos
      obtain ⟨ih1, ih3⟩ := ih (pos + 1)
      unfold processDraws
      dsimp only
      cases hf : fetch (gslUniformInt (stream pos) modn) with
      | some r =>
          dsimp only
          by_cases hrej : rejection st r rid lo hi = true
          · rw [if_pos hrej]
            exact ⟨by dsimp only; omega, ih3⟩
          · rw [if_neg hrej]
            refine ⟨by simp only [List.length_cons]; omega, ?_⟩
            intro s hs
            rcases List.mem_cons.mp hs with hz | hmem
            · subst hz; simpa using hrej
            · exact ih3 s hmem
      | none =>
          dsimp only
          exact ⟨by omega, ih3⟩

theorem processRanges_spec (st : LSMState) (lo hi : Nat) (stream : Nat → Nat) :
    ∀ (pairs : List (SampleRange × Nat)) (pos : Nat),
      (processRanges st lo hi stream pairs pos).1.length
          + (processRanges st lo hi stream pairs pos).2.1
        = (pairs.map Prod.snd).sum
      ∧ ∀ r ∈ (processRanges st lo hi stream pairs pos).1, validSample st lo hi r := by
  intro pairs
  induction pairs with
  | nil =>
      intro pos
      refine ⟨rfl, ?_⟩
      intro r hr
      simp [processRanges] at hr
  | cons p rest ih =>
      intro pos
      obtain ⟨rg, tally⟩ := p
      unfold processRanges
      dsimp only
      obtain ⟨h1, h2⟩ := processDraws_spec st lo hi (some (rg.level_idx, rg.run_idx))
        (fun idx => InMemRun_get_record_at
          ((st.memory_levels.getD rg.level_idx defaultLevel).m_runs.getD rg.run_idx [])
          (idx + rg.low))
        (rg.high - rg.low) stream tally pos
      obtain ⟨h3, h4⟩ := ih (processDraws st lo hi (some (rg.level_idx, rg.run_idx))
        (fun idx => InMemRun_get_record_at
          ((st.memory_levels.getD rg.level_idx defaultLevel).m_runs.getD rg.run_idx [])
          (idx + rg.low))
        (rg.high - rg.low) stream tally pos).2.2
      constructor
      · simp only [List.length_append, List.map_cons, List.sum_cons]
        omega
      · intro r hr
        rcases List.mem_append.mp hr with hm | hm
        · exact ⟨_, h2 r hm⟩
        · exact h4 r hm

theorem sum_map_add_distrib (n : Nat) (a b : Nat → Nat) :
    ((List.range n).map (fun i => a i + b i)).sum
      = ((List.range n).map a).sum + ((List.range n).map b).sum := by
  induction n with
  | zero => rfl
  | succ m ih =>
      rw [List.range_succ]
      simp only [List.map_append, List.sum_append, List.map_cons, List.map_nil,
        List.sum_cons, List.sum_nil, ih]
      omega

theorem sum_map_indicator_zero (n c : Nat) (hc : n ≤ c) :
    ((List.range n).map (fun i => if c = i then 1 else 0)).sum = 0 := by
  induction n with
  | zero => rfl
  | succ m ih =>
      rw [List.range_succ]
      simp only [List.map_append, List.sum_append, List.map_cons, List.map_nil,
        List.sum_cons, List.sum_nil]
      rw [ih (by omega), if_neg (by omega)]
      omega

theorem sum_map_indicator_one (n c : Nat) (hc : c < n) :
    ((List.range n).map (fun i => if c = i then 1 else 0)).sum = 1 := by
  induction n with
  | zero => omega
  | succ m ih =>
      rw [List.range_succ]
      simp only [List.map_append, List.sum_append, List.map_cons, List.map_nil,
        List.sum_cons, List.sum_nil]
      by_cases hcm : c = m
      · rw [if_pos hcm, sum_map_indicator_zero m c (by omega)]
        omega
      · rw [if_neg hcm, ih (by omega)]
        omega

theorem drawCount_succ (n : Nat) (stream : Nat → Nat) (pos draws i : Nat) :
    drawCount n stream pos (draws + 1) i
      = drawCount n stream pos draws i
        + (if aliasGet n (stream (pos + draws)) = i then 1 else 0) := by
  unfold drawCount
  rw [List.range_succ, List.filter_append, List.length_append]
  congr 1
  simp only [List.filter_cons, List.filter_nil]
  by_cases h : aliasGet n (stream (pos + draws)) = i
  · rw [if_pos h]
    simp [h]
  · rw [if_neg h]
    simp [h]

/-- Every alias draw lands in exactly one tally bucket. -/
theorem tallies_sum (n : Nat) (hn : 1 ≤ n) (stream : Nat → Nat) (pos : Nat) :
    ∀ draws, ((List.range n).map (drawCount n stream pos draws)).sum = draws := by
  intro draws
  induction draws with
  | zero =>
      apply List.sum_eq_zero
      intro x hx
      rcases List.mem_map.mp hx with ⟨i, _, hi⟩
      rw [← hi]
      unfold drawCount
      simp
  | succ d ih =>
      have hstep : ((List.range n).map (drawCount n stream pos (d + 1))).sum
          = ((List.range n).map (fun i => drawCount n stream pos d i
              + (if aliasGet n (stream (pos + d)) = i then 1 else 0))).sum := by
        congr 1
        apply List.map_congr_left
        intro i _
        exact drawCount_succ n stream pos d i
      rw [hstep, sum_map_add_distrib, ih,
        sum_map_indicator_one n (aliasGet n (stream (pos + d)))
          (by unfold aliasGet; exact Nat.mod_lt _ (by omega))]

theorem zip_snd_sum : ∀ (A : List SampleRange) (B : List Nat), A.length = B.length →
    ((A.zip B).map Prod.snd).sum = B.sum := by
  intro A
  induction A with
  | nil =>
      intro B hB
      have : B = [] := by
        cases B with
        | nil => rfl
        | cons b bs => simp at hB
      subst this
      rfl
  | cons a as ih =>
      intro B hB
      cases B with
      | nil => simp at hB
      | cons b bs =>
          simp only [List.zip_cons_cons, List.map_cons, List.sum_cons]
          rw [ih bs (by simpa using hB)]

theorem getD_zero_add_drop_sum (l : List Nat) (hne : l ≠ []) :
    l.getD 0 0 + (l.drop 1).sum = l.sum := by
  cases l with
  | nil => exact absurd rfl hne
  | cons a rest => simp

theorem samplePass_spec (st : LSMState) (lo hi : Nat) (stream : Nat → Nat)
    (rejections pos : Nat) :
    (samplePass st lo hi stream rejections pos).1.length
        + (samplePass st lo hi stream rejections pos).2.1 = rejections
    ∧ ∀ r ∈ (samplePass st lo hi stream rejections pos).1, validSample st lo hi r := by
  unfold samplePass
  dsimp only
  set n := (record_counts st lo hi).length with hn
  have hn1 : 1 ≤ n := by
    rw [hn]
    unfold record_counts
    simp
  set tallies := (List.range n).map (drawCount n stream pos rejections) with htal
  have htlen : tallies.length = n := by simp [htal]
  have htne : tallies ≠ [] := by
    intro hnil
    rw [hnil] at htlen
    simp at htlen
    omega
  obtain ⟨hm1, hm2⟩ := processDraws_spec st lo hi none
    (fun idx => some (st.memtable.get_record_at idx))
    (memtable_cutoff st.memtable) stream (tallies.getD 0 0) (pos + rejections)
  obtain ⟨hl1, hl2⟩ := processRanges_spec st lo hi stream
    ((sampleRanges st lo hi).zip (tallies.drop 1))
    (processDraws st lo hi none (fun idx => some (st.memtable.get_record_at idx))
      (memtable_cutoff st.memtable) stream (tallies.getD 0 0) (pos + rejections)).2.2
  constructor
  · simp only [List.length_append]
    have hzip : (((sampleRanges st lo hi).zip (tallies.drop 1)).map Prod.snd).sum
        = (tallies.drop 1).sum := by
      apply zip_snd_sum
      have : (tallies.drop 1).length = n - 1 := by
        simp [htlen]
      rw [this]
      rw [hn]
      unfold record_counts
      simp
    rw [hzip] at hl1
    have hsum : tallies.getD 0 0 + (tallies.drop 1).sum = tallies.sum :=
      getD_zero_add_drop_sum tallies htne
    have htsum : tallies.sum = rejections := by
      rw [htal]
      exact tallies_sum n hn1 stream pos rejections
    omega
  · intro r hr
    rcases List.mem_append.mp hr with hm | hm
    · exact ⟨none, hm2 r hm⟩
    · exact hl2 r hm

theorem rsLoop_spec (st : LSMState) (lo hi k : Nat) (stream : Nat → Nat) :
    ∀ (fuel rejections pos : Nat) (acc out : List record_t),
      acc.length + rejections = k →
      (∀ r ∈ acc, validSample st lo hi r) →
      rsLoop st lo hi k stream fuel rejections pos acc = some out →
      out.length = k ∧ ∀ r ∈ out, validSample st lo hi r := by
  intro fuel
  induction fuel with
  | zero =>
      intro rejections pos acc out _ _ hout
      simp [rsLoop] at hout
  | succ m ih =>
      intro rejections pos acc out hinv hval hout
      unfold rsLoop at hout
      dsimp only at hout
      obtain ⟨hp1, hp2⟩ := samplePass_spec st lo hi stream rejections pos
      by_cases hlt : (acc ++ (samplePass st lo hi stream rejections pos).1).length < k
      · rw [if_pos hlt] at hout
        apply ih _ _ _ _ _ _ hout
        · simp only [List.length_append]
          omega
        · intro r hr
          rcases List.mem_append.mp hr with hm | hm
          · exact hval r hm
          · exact hp2 r hm
      · rw [if_neg hlt] at hout
        cases hout
        constructor
        · simp only [List.length_append] at hlt ⊢
          omega
        · intro r hr
          rcases List.mem_append.mp hr with hm | hm
          · exact hval r hm
          · exact hp2 r hm

/--
C1 (amended).  Whenever `range_sample` returns after entering its sampling
loop (the total weight is non-zero, which the claim's precondition — some
live record in `[lo, hi]` — guarantees), the sample set holds exactly `k`
records, and every one of them is a non-tombstone with key in `[lo, hi]`
that `is_deleted` rejects for its origin.  (Termination itself is not
guaranteed; see the counterexample.)
-/
theorem range_sample_partial_correct (st : LSMState) (lo hi k : Nat)
    (stream : Nat → Nat) (fuel : Nat) (out : List record_t)
    (htot : total_records st lo hi ≠ 0)
    (hret : range_sample st lo hi k stream fuel = some out) :
    out.length = k
    ∧ ∀ r ∈ out, r.is_tombstone = false ∧ lo ≤ r.key ∧ r.key ≤ hi
        ∧ ∃ rid, is_deleted st r rid = false := by
  unfold range_sample at hret
  rw [if_neg htot] at hret
  obtain ⟨h1, h2⟩ := rsLoop_spec st lo hi k stream fuel k 0 [] out (by simp)
    (by intro r hr; simp at hr) hret
  refine ⟨h1, ?_⟩
  intro r hr
  obtain ⟨rid, hrej⟩ := h2 r hr
  unfold rejection at hrej
  by_cases hts : r.is_tombstone = true
  · rw [if_pos hts] at hrej
    cases hrej
  · rw [if_neg hts] at hrej
    by_cases hb : (r.key < lo || hi < r.key) = true
    · rw [if_pos hb] at hrej
      cases hrej
    · rw [if_neg hb] at hrej
      simp only [Bool.or_eq_true, decide_eq_true_eq, not_or] at hb
      by_cases hd : is_deleted st r rid = true
      · rw [if_pos hd] at hrej
        cases hrej
      · refine ⟨by simpa using hts, by omega, by omega, rid, by simpa using hd⟩

/-- Witness for C1 (amended): a two-record memtable with both keys equal to
5; sampling one record from `[5, 5]` returns after one pass with exactly
that record. -/
theorem range_sample_partial_correct_witness :
    total_records ⟨⟨2, 1, [⟨5, 6, 0⟩, ⟨5, 7, 4⟩], 2, 0, 2, []⟩, []⟩ 5 5 ≠ 0
    ∧ (range_sample ⟨⟨2, 1, [⟨5, 6, 0⟩, ⟨5, 7, 4⟩], 2, 0, 2, []⟩, []⟩ 5 5 1
        (fun _ => 0) 1).map List.length = some 1 := by
  refine ⟨by decide, ?_⟩
  cases hret : range_sample ⟨⟨2, 1, [⟨5, 6, 0⟩, ⟨5, 7, 4⟩], 2, 0, 2, []⟩, []⟩ 5 5 1
      (fun _ => 0) 1 with
  | none =>
      have : (range_sample ⟨⟨2, 1, [⟨5, 6, 0⟩, ⟨5, 7, 4⟩], 2, 0, 2, []⟩, []⟩ 5 5 1
          (fun _ => 0) 1).isSome = true := by decide
      rw [hret] at this
      simp at this
  | some out =>
      have h := range_sample_partial_correct _ 5 5 1 (fun _ => 0) 1 out
        (by decide) hret
      simp [h.1]

/-- `range_sample` terminates on the given input: some iteration bound
suffices for the sampling loop to return. -/
def rangeSampleTerminates (st : LSMState) (lo hi k : Nat) (stream : Nat → Nat) : Prop :=
  ∃ fuel out, range_sample st lo hi k stream fuel = some out

/-- Memtable whose only in-range candidate slot holds a tombstone: slot 0 is
the tombstone (5, 5), slot 1 the live record (5, 6); `memtable_cutoff` is 1,
so only slot 0 is ever drawn. -/
def c1ExState : LSMState :=
  ⟨⟨2, 1, [⟨5, 5, 1⟩, ⟨5, 6, 4⟩], 2, 1, 2, [5]⟩, []⟩

theorem c1_loop_stuck : ∀ (fuel pos : Nat),
    rsLoop c1ExState 5 5 1 (fun _ => 0) fuel 1 pos [] = none := by
  intro fuel
  induction fuel with
  | zero => intro pos; rfl
  | succ m ih =>
      intro pos
      have hpass : samplePass c1ExState 5 5 (fun _ => 0) 1 pos
          = ([], 1, pos + 1 + 1) := rfl
      unfold rsLoop
      dsimp only
      rw [hpass]
      dsimp only
      rw [if_pos (by simp)]
      simpa using ih (pos + 1 + 1)

/--
C1 counterexample.  The state `c1ExState` has a live, undeleted record with
key 5 in its memtable, yet `range_sample` over `[5, 5]` with `k = 1` never
returns for the all-zero random stream: the memtable contributes its full
record weight regardless of the key range, the only slot the bounded draw
can pick holds a tombstone, and the loop has no bail-out, so every pass
rejects and the do-while repeats forever.  The claim's unconditional
"returns ... after writing exactly k records" is therefore false.
-/
theorem range_sample_c1_counterexample :
    (c1ExState.memtable.m_data.any (fun r =>
        !r.is_tombstone && decide (5 ≤ r.key) && decide (r.key ≤ 5)
        && !(is_deleted c1ExState r none))) = true
    ∧ ¬ rangeSampleTerminates c1ExState 5 5 1 (fun _ => 0) := by
  refine ⟨by decide, ?_⟩
  rintro ⟨fuel, out, hout⟩
  rw [range_sample] at hout
  rw [if_neg (by decide)] at hout
  rw [c1_loop_stuck fuel 0] at hout
  cases hout

/--
C4 (amended).  When the accumulated weight `total_records` over `[lo, hi]`
is zero, `range_sample` bails out immediately and writes nothing.  This is
the only situation the zero-weight bailout covers: because the memtable
contributes its full record count to the weights regardless of the key
range, an interval empty of live records does not in general make the
weight zero, and then the call need not return at all (see the
counterexample).
-/
theorem range_sample_zero_total (st : LSMState) (lo hi k : Nat)
    (stream : Nat → Nat) (fuel : Nat)
    (h : total_records st lo hi = 0) :
    range_sample st lo hi k stream fuel = some [] := by
  unfold range_sample
  rw [if_pos h]

/-- Witness for C4 (amended): an empty memtable and no levels give total
weight zero (the memtable count wraps to `2^64 mod 2^64 = 0`), and the call
returns the empty sample at once. -/
theorem range_sample_zero_total_witness :
    total_records ⟨MemTable.mk0 4 2, []⟩ 1 2 = 0
    ∧ range_sample ⟨MemTable.mk0 4 2, []⟩ 1 2 3 (fun _ => 0) 0 = some [] := by
  refine ⟨by decide, range_sample_zero_total _ 1 2 3 (fun _ => 0) 0 (by decide)⟩

/-- Memtable holding two live records with keys 10 and 11, both outside the
query range `[1, 2]`; the weight is still positive (the memtable always
contributes its record count), so the zero-weight bailout never fires. -/
def c4ExState : LSMState :=
  ⟨⟨2, 1, [⟨10, 0, 0⟩, ⟨11, 0, 4⟩], 2, 0, 2, []⟩, []⟩

theorem c4_loop_stuck : ∀ (fuel pos : Nat),
    rsLoop c4ExState 1 2 1 (fun _ => 0) fuel 1 pos [] = none := by
  intro fuel
  induction fuel with
  | zero => intro pos; rfl
  | succ m ih =>
      intro pos
      have hpass : samplePass c4ExState 1 2 (fun _ => 0) 1 pos
          = ([], 1, pos + 1 + 1) := rfl
      unfold rsLoop
      dsimp only
      rw [hpass]
      dsimp only
      rw [if_pos (by simp)]
      simpa using ih (pos + 1 + 1)

/--
C4 counterexample.  In `c4ExState` the interval `[1, 2]` contains no live
record (every record key lies outside it and there are no levels), yet the
total weight is 2, so the bailout at `total_records == 0` is not taken;
with the all-zero random stream every draw hits the out-of-range record at
slot 0, every pass rejects, and `range_sample` never returns — it does not
"return without writing" as the claim states.
-/
theorem range_sample_c4_counterexample :
    (c4ExState.memtable.m_data.all (fun r =>
        r.is_tombstone || decide (r.key < 1) || decide (2 < r.key))) = true
    ∧ c4ExState.memory_levels = []
    ∧ total_records c4ExState 1 2 ≠ 0
    ∧ ¬ rangeSampleTerminates c4ExState 1 2 1 (fun _ => 0) := by
  refine ⟨by decide, rfl, by decide, ?_⟩
  rintro ⟨fuel, out, hout⟩
  rw [range_sample] at hout
  rw [if_neg (by decide)] at hout
  rw [c4_loop_stuck fuel 0] at hout
  cases hout

/--
C9.  With rejection sampling enabled the memtable draw is
`gsl_rng_uniform_int(rng, memtable_cutoff)` with
`memtable_cutoff = record_count - 1`: for a memtable holding at least two
records (and fewer than `2^64`), the cutoff equals `record_count - 1`,
every possible draw is strictly below it — so the record stored at index
`record_count - 1` is never drawn — and every index in
`[0, record_count - 2]` is attained by some generator outcome.
-/
theorem memtable_last_slot_never_drawn (mt : MemTable)
    (h2 : 2 ≤ mt.m_reccnt) (hlt : mt.m_reccnt < 2 ^ 64) :
    memtable_cutoff mt = mt.m_reccnt - 1
    ∧ (∀ u, gslUniformInt u (memtable_cutoff mt) < mt.m_reccnt - 1)
    ∧ (∀ u, gslUniformInt u (memtable_cutoff mt) ≠ mt.m_reccnt - 1)
    ∧ (∀ j, j < mt.m_reccnt - 1 → ∃ u, gslUniformInt u (memtable_cutoff mt) = j) := by
  have hcut : memtable_cutoff mt = mt.m_reccnt - 1 := by
    unfold memtable_cutoff
    omega
  have hpos : 0 < mt.m_reccnt - 1 := by omega
  refine ⟨hcut, ?_, ?_, ?_⟩
  · intro u
    rw [hcut]
    exact Nat.mod_lt u hpos
  · intro u
    rw [hcut]
    exact Nat.ne_of_lt (Nat.mod_lt u hpos)
  · intro j hj
    refine ⟨j, ?_⟩
    rw [hcut]
    exact Nat.mod_eq_of_lt hj

/-- Witness for C9 at a three-record memtable: the cutoff is 2, the draw
for generator outcome 7 is below 2, and index 1 is attained. -/
theorem memtable_last_slot_never_drawn_witness :
    (2 ≤ (3 : Nat) ∧ (3 : Nat) < 2 ^ 64)
    ∧ memtable_cutoff ⟨4, 2, [⟨1, 1, 0⟩, ⟨2, 2, 4⟩, ⟨3, 3, 8⟩], 3, 0, 3, []⟩ = 2
    ∧ gslUniformInt 7 (memtable_cutoff ⟨4, 2, [⟨1, 1, 0⟩, ⟨2, 2, 4⟩, ⟨3, 3, 8⟩], 3, 0, 3, []⟩) < 2
    ∧ gslUniformInt 7 (memtable_cutoff ⟨4, 2, [⟨1, 1, 0⟩, ⟨2, 2, 4⟩, ⟨3, 3, 8⟩], 3, 0, 3, []⟩) ≠ 2
    ∧ ∃ u, gslUniformInt u (memtable_cutoff ⟨4, 2, [⟨1, 1, 0⟩, ⟨2, 2, 4⟩, ⟨3, 3, 8⟩], 3, 0, 3, []⟩) = 1 := by
  have h := memtable_last_slot_never_drawn
    ⟨4, 2, [⟨1, 1, 0⟩, ⟨2, 2, 4⟩, ⟨3, 3, 8⟩], 3, 0, 3, []⟩
    (by decide) (by decide)
  exact ⟨⟨by decide, by decide⟩, h.1, h.2.1 7, h.2.2.1 7, h.2.2.2 1 (by decide)⟩

/-! ### The LSM tree controller (`src/include/lsm/LsmTree.h`), tiering
configuration: `LSM_LEVELING = false`, `LSM_REJ_SAMPLE = true`,
`DELETE_TAGGING = true`.  The spec scopes the engine to the memory-resident
form, so the model keeps every level in memory (`grow` always creates a
memory level and `decode_level_index` is the identity). -/

/--
Modelled from the spec: the record comparator of `util/record.h` (not under
`src/`), used by `MemTable::sorted_output`'s qsort — records are ordered by
`(key, value, header)`; the header holds the insertion slot in its upper
bits, so ties on `(key, value)` fall back to insertion order, placing a live
record before the tombstone that deletes it.
-/
def recLe (r s : record_t) : Bool :=
  r.key < s.key
  || (r.key == s.key
      && (r.value < s.value || (r.value == s.value && r.header ≤ s.header)))

def insertRec (r : record_t) : List record_t → List record_t
  | [] => [r]
  | s :: rest => if recLe r s then r :: s :: rest else s :: insertRec r rest

def sortRecs : List record_t → List record_t
  | [] => []
  | r :: rest => insertRec r (sortRecs rest)

/-- `MemTable::sorted_output`: qsort of the first `m_reccnt` slots. -/
def MemTable.sorted_output (mt : MemTable) : List record_t :=
  sortRecs (mt.m_data.take mt.m_reccnt)

/-- `InMemRun::get_tombstone_count` (the constructor counts every emitted
tombstone, so the count equals the tombstones in the record array). -/
def InMemRun_get_tombstone_count (run : List record_t) : Nat :=
  (run.filter (fun r => r.is_tombstone)).length

/-- `MemoryLevel::get_tombstone_count`: sum over the runs. -/
def MemoryLevel.get_tombstone_count (lvl : MemoryLevel) : Nat :=
  (lvl.m_runs.map InMemRun_get_tombstone_count).sum

/-- `MemoryLevel::get_record_cnt`: sum over the runs. -/
def MemoryLevel.get_record_cnt (lvl : MemoryLevel) : Nat :=
  (lvl.m_runs.map List.length).sum

/-- `new MemoryLevel(idx, run_cap, ...)` as allocated by `grow` and
`merge_levels` in tiering mode: `run_cap = scale_factor`, no runs. -/
def freshLevel (scale_factor : Nat) : MemoryLevel := ⟨scale_factor, []⟩

/-- `MemoryLevel::append_mem_table`: build a run from the memtable's sorted
output (`InMemRun(MemTable*, BloomFilter*)`) into the next free slot. -/
def MemoryLevel.append_mem_table (lvl : MemoryLevel) (mt : MemTable) : MemoryLevel :=
  ⟨lvl.m_cap, lvl.m_runs ++ [memtableRunRecords mt.sorted_output]⟩

/-- `MemoryLevel::append_merged_runs`: k-way-merge all runs of the incoming
level into one new run (`InMemRun(InMemRun**, size_t, BloomFilter*)`) in the
next free slot. -/
def MemoryLevel.append_merged_runs (base incoming : MemoryLevel) : MemoryLevel :=
  ⟨base.m_cap, base.m_runs ++ [mergeRuns incoming.m_runs]⟩

/--
Modelled from the spec: `MemoryLevel::delete_record` (tagged deletes; the
in-tree `MemoryLevel.h` predates `DELETE_TAGGING`): try each run in slot
order with `InMemRun::delete_record`, stopping at the first success.
-/
def deleteInRuns (k v : Nat) : List (List record_t) → Bool × List (List record_t)
  | [] => (false, [])
  | run :: rest =>
      let res := InMemRun_delete_record run k v
      if res.1 then (true, res.2 :: rest)
      else
        let rres := deleteInRuns k v rest
        (rres.1, run :: rres.2)

def MemoryLevel.delete_record (lvl : MemoryLevel) (k v : Nat) :
    Bool × MemoryLevel :=
  let res := deleteInRuns k v lvl.m_runs
  (res.1, ⟨lvl.m_cap, res.2⟩)

/--
The LSM tree state for the controller operations: the configuration (the
constructor arguments that matter to compaction), the active memtable, and
the memory levels.  `max_tombstone_prop` is carried as a rational; both
`validate_tombstone_proportion` and `enforce_tombstone_maximum` compare
the same quotient `tombstones / capacity` against it, so modelling the
`long double` arithmetic with exact rationals keeps the two tests
consistent exactly as the source's identical floating expressions do.
-/
structure LSMConfig where
  memtable_cap : Nat
  memtable_ts_cap : Nat
  scale_factor : Nat
  max_tombstone_prop : ℚ
deriving DecidableEq, Repr

structure LSMTreeState where
  cfg : LSMConfig
  memtable : MemTable
  memory_levels : List MemoryLevel
deriving DecidableEq, Repr

/-- `LSMTree::calc_level_record_capacity`: `memtable_cap * scale_factor^(idx+1)`. -/
def calc_level_record_capacity (t : LSMTreeState) (idx : Nat) : Nat :=
  t.cfg.memtable_cap * t.cfg.scale_factor ^ (idx + 1)

/-- Tombstone count of the level at `idx` (absent levels count 0). -/
def level_tombstone_count (t : LSMTreeState) (idx : Nat) : Nat :=
  (t.memory_levels.getD idx defaultLevel).get_tombstone_count

/-- The quotient `get_tombstone_count() / calc_level_record_capacity(idx)`
computed by both `validate_tombstone_proportion` and
`enforce_tombstone_maximum`. -/
def ts_prop (t : LSMTreeState) (idx : Nat) : ℚ :=
  (level_tombstone_count t idx : ℚ) / (calc_level_record_capacity t idx : ℚ)

/-- `LSMTree::validate_tombstone_proportion` (memory levels). -/
def validate_tombstone_proportion (t : LSMTreeState) : Bool :=
  (List.range t.memory_levels.length).all
    (fun i => decide (ts_prop t i ≤ t.cfg.max_tombstone_prop))

/-- `LSMTree::can_merge_with` in tiering mode: the level must exist and have
a free run slot; the incoming record count is ignored. -/
def can_merge_with (t : LSMTreeState) (idx : Nat) : Bool :=
  match t.memory_levels[idx]? with
  | none => false
  | some lvl => lvl.m_runs.length < t.cfg.scale_factor

/-- `LSMTree::find_mergable_level`: first level in `idx+1 .. last_level_idx`
that can absorb a merge; `none` plays the role of `-1`. -/
def find_mergable_level (t : LSMTreeState) (idx : Nat) : Option Nat :=
  (List.range' (idx + 1) (t.memory_levels.length - (idx + 1))).find?
    (fun i => can_merge_with t i)

/-- `LSMTree::grow` (memory-level branch): append a fresh level with
`scale_factor` run slots. -/
def grow (t : LSMTreeState) : LSMTreeState :=
  { t with memory_levels := t.memory_levels ++ [freshLevel t.cfg.scale_factor] }

/-- `LSMTree::merge_levels` in tiering mode (memory levels): the incoming
level's runs are merged into one run appended to the base level, and the
incoming level is replaced by a fresh one. -/
def merge_levels (t : LSMTreeState) (base_level incoming_level : Nat) : LSMTreeState :=
  let base_lvl := t.memory_levels.getD base_level defaultLevel
  let inc_lvl := t.memory_levels.getD incoming_level defaultLevel
  { t with memory_levels :=
      ((t.memory_levels.set base_level (base_lvl.append_merged_runs inc_lvl)).set
        incoming_level (freshLevel t.cfg.scale_factor)) }

/-- `LSMTree::merge_memtable_into_l0` in tiering mode. -/
def merge_memtable_into_l0 (t : LSMTreeState) : LSMTreeState :=
  { t with memory_levels :=
      (t.memory_levels.set 0
        ((t.memory_levels.getD 0 defaultLevel).append_mem_table t.memtable)) }

/-- The mutually recursive compaction cascade
(`merge_down` / its level loop / `enforce_tombstone_maximum`), fuelled: the
recursion grows the tree without static bound, so the model returns `none`
when the fuel runs out. -/
inductive MergeCmd where
  | down (idx : Nat)
  | level_loop (i idx : Nat)
  | enforce (idx : Nat)
deriving DecidableEq, Repr

def runMerge : Nat → LSMTreeState → MergeCmd → Option LSMTreeState
  | 0, _, _ => none
  | fuel + 1, t, MergeCmd.down idx =>
      match find_mergable_level t idx with
      | some base => runMerge fuel t (MergeCmd.level_loop base idx)
      | none => runMerge fuel (grow t) (MergeCmd.level_loop t.memory_levels.length idx)
  | fuel + 1, t, MergeCmd.level_loop i idx =>
      if idx < i then
        match runMerge fuel (merge_levels t i (i - 1)) (MergeCmd.enforce i) with
        | some t1 => runMerge fuel t1 (MergeCmd.level_loop (i - 1) idx)
        | none => none
      else some t
  | fuel + 1, t, MergeCmd.enforce idx =>
      if t.cfg.max_tombstone_prop < ts_prop t idx then
        runMerge fuel t (MergeCmd.down idx)
      else some t

/-- `LSMTree::merge_memtable`: make room at level 0 if needed, flush the
memtable into it, enforce the tombstone maximum at level 0, truncate. -/
def merge_memtable (fuel : Nat) (t : LSMTreeState) : Option LSMTreeState :=
  let step1 := if can_merge_with t 0 then some t else runMerge fuel t (MergeCmd.down 0)
  match step1 with
  | none => none
  | some t1 =>
      let t2 := merge_memtable_into_l0 t1
      match runMerge fuel t2 (MergeCmd.enforce 0) with
      | none => none
      | some t3 => some { t3 with memtable := t3.memtable.truncate.2 }

/-- `LSMTree::append`: flush first when the active memtable is full, then
append into it. -/
def LSMTree_append (fuel : Nat) (t : LSMTreeState) (k v : Nat) (ts : Bool) :
    Option (Nat × LSMTreeState) :=
  if t.memtable.is_full then
    match merge_memtable fuel t with
    | none => none
    | some t1 =>
        let res := t1.memtable.append k v ts
        some (res.1, { t1 with memtable := res.2 })
  else
    let res := t.memtable.append k v ts
    some (res.1, { t with memtable := res.2 })

/--
Modelled from the spec: `MemTable::delete_record` (absent from the in-tree
`MemTable.h`): the tagged-delete walk falls back to inserting a tombstone
into the memtable when no level holds the record.
-/
def MemTable.delete_record (mt : MemTable) (k v : Nat) : Nat × MemTable :=
  mt.append k v true

/-- `LSMTree::delete_record` (`DELETE_TAGGING = true`): walk the levels top
down tagging the first match; fall back to the memtable. -/
def deleteInLevels (k v : Nat) : List MemoryLevel → Bool × List MemoryLevel
  | [] => (false, [])
  | lvl :: rest =>
      let res := lvl.delete_record k v
      if res.1 then (true, res.2 :: rest)
      else
        let rres := deleteInLevels k v rest
        (rres.1, lvl :: rres.2)

def LSMTree_delete_record (t : LSMTreeState) (k v : Nat) : Nat × LSMTreeState :=
  let res := deleteInLevels k v t.memory_levels
  if res.1 then (1, { t with memory_levels := res.2 })
  else
    let mres := t.memtable.delete_record k v
    (mres.1, { t with memtable := mres.2 })

/-- The top-level operations of claim C2.  `range_sample` never writes to
the memtable or the levels, so its state transition is the identity. -/
inductive LSMOp where
  | append (k v : Nat) (ts : Bool) (fuel : Nat)
  | delete (k v : Nat)
  | sample (lo hi k : Nat)

def applyOp (t : LSMTreeState) : LSMOp → Option LSMTreeState
  | LSMOp.append k v ts fuel => (LSMTree_append fuel t k v ts).map Prod.snd
  | LSMOp.delete k v => some (LSMTree_delete_record t k v).2
  | LSMOp.sample _ _ _ => some t

/-- A freshly constructed `LSMTree`. -/
def initTree (cfg : LSMConfig) : LSMTreeState :=
  ⟨cfg, MemTable.mk0 cfg.memtable_cap cfg.memtable_ts_cap, []⟩

/-- States reachable from a fresh tree by completed top-level operations. -/
inductive TreeReachable (cfg : LSMConfig) : LSMTreeState → Prop where
  | init : TreeReachable cfg (initTree cfg)
  | step {t : LSMTreeState} {op : LSMOp} {t' : LSMTreeState} :
      TreeReachable cfg t → applyOp t op = some t' → TreeReachable cfg t'

theorem getD_len_le {α : Type} : ∀ (l : List α) (d : α) (j : Nat),
    l.length ≤ j → l.getD j d = d := by
  intro l
  induction l with
  | nil => intro d j _; cases j <;> rfl
  | cons x xs ih =>
      intro d j h
      cases j with
      | zero => simp at h
      | succ j => simpa using ih d j (by simpa using h)

theorem getD_set_ne {α : Type} : ∀ (l : List α) (d a : α) (i j : Nat),
    i ≠ j → (l.set i a).getD j d = l.getD j d := by
  intro l
  induction l with
  | nil => intro d a i j _; rfl
  | cons x xs ih =>
      intro d a i j h
      cases i with
      | zero =>
          cases j with
          | zero => exact absurd rfl h
          | succ j => simp [List.set]
      | succ i =>
          cases j with
          | zero => simp [List.set]
          | succ j => simpa [List.set] using ih d a i j (by omega)

theorem getD_set_lt {α : Type} : ∀ (l : List α) (d a : α) (i : Nat),
    i < l.length → (l.set i a).getD i d = a := by
  intro l
  induction l with
  | nil => intro d a i h; simp at h
  | cons x xs ih =>
      intro d a i h
      cases i with
      | zero => rfl
      | succ i => simpa [List.set] using ih d a i (by simpa using h)

theorem getD_append_single {α : Type} : ∀ (l : List α) (x d : α) (j : Nat),
    (l ++ [x]).getD j d
      = if j < l.length then l.getD j d else if j = l.length then x else d := by
  intro l
  induction l with
  | nil =>
      intro x d j
      cases j with
      | zero => rfl
      | succ j => simp [List.getD]
  | cons y ys ih =>
      intro x d j
      cases j with
      | zero => simp
      | succ j =>
          simp only [List.cons_append, List.getD_cons_succ, ih x d j,
            List.length_cons]
          by_cases h1 : j < ys.length
          · rw [if_pos h1, if_pos (by omega : j + 1 < ys.length + 1)]
          · rw [if_neg h1, if_neg (by omega : ¬ j + 1 < ys.length + 1)]
            by_cases h2 : j = ys.length
            · rw [if_pos h2, if_pos (by omega : j + 1 = ys.length + 1)]
            · rw [if_neg h2, if_neg (by omega : ¬ j + 1 = ys.length + 1)]

theorem ts_prop_congr (t t' : LSMTreeState) (j : Nat)
    (hcfg : t'.cfg = t.cfg)
    (hts : level_tombstone_count t' j = level_tombstone_count t j) :
    ts_prop t' j = ts_prop t j := by
  unfold ts_prop calc_level_record_capacity
  rw [hcfg, hts]

theorem ts_prop_out_of_range (t : LSMTreeState) (j : Nat)
    (h : t.memory_levels.length ≤ j) : ts_prop t j = 0 := by
  unfold ts_prop level_tombstone_count
  rw [getD_len_le _ _ _ h]
  simp [defaultLevel, MemoryLevel.get_tombstone_count]

theorem level_ts_grow (t : LSMTreeState) (j : Nat) :
    level_tombstone_count (grow t) j = level_tombstone_count t j := by
  unfold level_tombstone_count grow
  dsimp only
  rw [getD_append_single]
  by_cases h1 : j < t.memory_levels.length
  · rw [if_pos h1]
  · rw [if_neg h1]
    rw [getD_len_le t.memory_levels defaultLevel j (by omega)]
    by_cases h2 : j = t.memory_levels.length
    · rw [if_pos h2]
      simp [freshLevel, defaultLevel, MemoryLevel.get_tombstone_count]
    · rw [if_neg h2]

theorem ts_prop_grow (t : LSMTreeState) (j : Nat) :
    ts_prop (grow t) j = ts_prop t j :=
  ts_prop_congr t (grow t) j rfl (level_ts_grow t j)

theorem level_ts_merge_levels_other (t : LSMTreeState) (b inc j : Nat)
    (h1 : j ≠ b) (h2 : j ≠ inc) :
    level_tombstone_count (merge_levels t b inc) j = level_tombstone_count t j := by
  unfold level_tombstone_count merge_levels
  dsimp only
  rw [getD_set_ne _ _ _ _ _ (Ne.symm h2), getD_set_ne _ _ _ _ _ (Ne.symm h1)]

theorem ts_prop_merge_levels_other (t : LSMTreeState) (b inc j : Nat)
    (h1 : j ≠ b) (h2 : j ≠ inc) :
    ts_prop (merge_levels t b inc) j = ts_prop t j :=
  ts_prop_congr t (merge_levels t b inc) j rfl
    (level_ts_merge_levels_other t b inc j h1 h2)

theorem ts_prop_merge_levels_inc (t : LSMTreeState) (b inc : Nat) (hne : b ≠ inc) :
    ts_prop (merge_levels t b inc) inc = 0 := by
  unfold ts_prop level_tombstone_count merge_levels
  dsimp only
  by_cases h : inc < t.memory_levels.length
  · rw [getD_set_lt _ _ _ _ (by simpa using h)]
    simp [freshLevel, MemoryLevel.get_tombstone_count]
  · rw [getD_len_le _ _ _ (by simp; omega)]
    simp [defaultLevel, MemoryLevel.get_tombstone_count]

theorem level_ts_into_l0 (t : LSMTreeState) (j : Nat) (h : j ≠ 0) :
    level_tombstone_count (merge_memtable_into_l0 t) j = level_tombstone_count t j := by
  unfold level_tombstone_count merge_memtable_into_l0
  dsimp only
  rw [getD_set_ne _ _ _ _ _ (Ne.symm h)]

theorem ts_prop_into_l0 (t : LSMTreeState) (j : Nat) (h : j ≠ 0) :
    ts_prop (merge_memtable_into_l0 t) j = ts_prop t j :=
  ts_prop_congr t (merge_memtable_into_l0 t) j rfl (level_ts_into_l0 t j h)

/-- All levels from index `k` on satisfy the tombstone-proportion bound. -/
def OKfrom (t : LSMTreeState) (k : Nat) : Prop :=
  ∀ j, k ≤ j → ts_prop t j ≤ t.cfg.max_tombstone_prop

/-- Every level satisfies the tombstone-proportion bound. -/
def AllOK (t : LSMTreeState) : Prop :=
  ∀ j, ts_prop t j ≤ t.cfg.max_tombstone_prop

/-- Contract of `merge_down` and `enforce_tombstone_maximum` at `idx`:
configuration and memtable untouched, levels shallower than `idx` keep
their proportions, and every level from `idx` on is within bound. -/
def mergePostDown (t t' : LSMTreeState) (idx : Nat) : Prop :=
  t'.cfg = t.cfg ∧ t'.memtable = t.memtable
  ∧ (∀ j, j < idx → ts_prop t' j = ts_prop t j) ∧ OKfrom t' idx

/-- Contract of the descending merge loop of `merge_down`. -/
def mergePostLoop (t t' : LSMTreeState) (i idx : Nat) : Prop :=
  t'.cfg = t.cfg ∧ t'.memtable = t.memtable
  ∧ (∀ j, j < idx → ts_prop t' j = ts_prop t j) ∧ OKfrom t' (idx + 1)
  ∧ (idx < i → ts_prop t' idx = 0) ∧ (i ≤ idx → t' = t)

theorem runMerge_contract : ∀ fuel : Nat,
    (∀ t t' idx, runMerge fuel t (MergeCmd.down idx) = some t' →
      0 ≤ t.cfg.max_tombstone_prop → OKfrom t (idx + 1) → mergePostDown t t' idx)
    ∧ (∀ t t' i idx, runMerge fuel t (MergeCmd.level_loop i idx) = some t' →
      0 ≤ t.cfg.max_tombstone_prop → OKfrom t (idx + 1) → mergePostLoop t t' i idx)
    ∧ (∀ t t' idx, runMerge fuel t (MergeCmd.enforce idx) = some t' →
      0 ≤ t.cfg.max_tombstone_prop → OKfrom t (idx + 1) → mergePostDown t t' idx) := by
  intro fuel
  induction fuel with
  | zero =>
      refine ⟨?_, ?_, ?_⟩
      · intro t t' idx h _ _
        simp [runMerge] at h
      · intro t t' i idx h _ _
        simp [runMerge] at h
      · intro t t' idx h _ _
        simp [runMerge] at h
  | succ f ih =>
      obtain ⟨ihD, ihL, ihE⟩ := ih
      refine ⟨?_, ?_, ?_⟩
      · -- merge_down
        intro t t' idx h hτ hpre
        unfold runMerge at h
        cases hf : find_mergable_level t idx with
        | some base =>
            rw [hf] at h
            dsimp only at h
            have hbase : idx + 1 ≤ base := by
              have hf' : (List.range' (idx + 1)
                  (t.memory_levels.length - (idx + 1))).find?
                    (fun i => can_merge_with t i) = some base := hf
              have hmem := List.mem_of_find?_eq_some hf'
              have := List.mem_range'_1.mp hmem
              omega
            obtain ⟨hc, hm, hsh, hok, hfresh, _⟩ := ihL t t' base idx h hτ hpre
            refine ⟨hc, hm, hsh, ?_⟩
            intro j hj
            rcases Nat.lt_or_ge idx j with hlt | hge
            · exact hok j hlt
            · have hje : j = idx := by omega
              subst hje
              rw [hfresh (by omega), hc]
              exact hτ
        | none =>
            rw [hf] at h
            dsimp only at h
            have hpreg : OKfrom (grow t) (idx + 1) := by
              intro j hj
              rw [ts_prop_grow]
              exact hpre j hj
            obtain ⟨hc, hm, hsh, hok, hfresh, heq⟩ :=
              ihL (grow t) t' t.memory_levels.length idx h hτ hpreg
            have hcg : t'.cfg = t.cfg := hc.trans rfl
            have hmg : t'.memtable = t.memtable := hm.trans rfl
            refine ⟨hcg, hmg, ?_, ?_⟩
            · intro j hj
              rw [hsh j hj, ts_prop_grow]
            · intro j hj
              rcases Nat.lt_or_ge idx j with hlt | hge
              · exact hok j hlt
              · have hje : j = idx := by omega
                subst hje
                by_cases hlen : j < t.memory_levels.length
                · rw [hfresh hlen, hcg]
                  exact hτ
                · rw [heq (by omega), ts_prop_grow,
                    ts_prop_out_of_range t j (by omega)]
                  exact hτ
      · -- the descending loop of merge_down
        intro t t' i idx h hτ hpre
        unfold runMerge at h
        by_cases hii : idx < i
        · rw [if_pos hii] at h
          cases hE : runMerge f (merge_levels t i (i - 1)) (MergeCmd.enforce i) with
          | none =>
              rw [hE] at h
              simp at h
          | some t3 =>
              rw [hE] at h
              dsimp only at h
              have hother : ∀ j, j ≠ i → j ≠ i - 1 →
                  ts_prop (merge_levels t i (i - 1)) j = ts_prop t j := by
                intro j hj1 hj2
                exact ts_prop_merge_levels_other t i (i - 1) j hj1 hj2
              have hfresh2 : ts_prop (merge_levels t i (i - 1)) (i - 1) = 0 :=
                ts_prop_merge_levels_inc t i (i - 1) (by omega)
              have hpre2 : OKfrom (merge_levels t i (i - 1)) (i + 1) := by
                intro j hj
                rw [hother j (by omega) (by omega)]
                exact hpre j (by omega)
              obtain ⟨hc3, hm3, hsh3, hok3⟩ :=
                ihE (merge_levels t i (i - 1)) t3 i hE hτ hpre2
              have hc3' : t3.cfg = t.cfg := hc3.trans rfl
              have hτ3 : 0 ≤ t3.cfg.max_tombstone_prop := by
                rw [hc3']
                exact hτ
              have hpre3 : OKfrom t3 (idx + 1) := by
                intro j hj
                rcases Nat.lt_or_ge j i with hji | hji
                · rw [hsh3 j hji, hc3']
                  by_cases hj1 : j = i - 1
                  · rw [hj1, hfresh2]
                    exact hτ
                  · rw [hother j (by omega) hj1]
                    exact hpre j hj
                · exact hok3 j hji
              obtain ⟨hc', hm', hsh', hok', hfr', heq'⟩ :=
                ihL t3 t' (i - 1) idx h hτ3 hpre3
              refine ⟨hc'.trans hc3', hm'.trans (hm3.trans rfl), ?_, hok', ?_, ?_⟩
              · intro j hj
                rw [hsh' j hj, hsh3 j (by omega), hother j (by omega) (by omega)]
              · intro _
                by_cases hidx : idx < i - 1
                · exact hfr' hidx
                · have hide : idx = i - 1 := by omega
                  rw [heq' (by omega), hide, hsh3 (i - 1) (by omega), hfresh2]
              · intro hle
                exact absurd hle (by omega)
        · rw [if_neg hii] at h
          cases h
          exact ⟨rfl, rfl, fun j _ => rfl, fun j hj => hpre j hj,
            fun hlt => absurd hlt hii, fun _ => rfl⟩
      · -- enforce_tombstone_maximum
        intro t t' idx h hτ hpre
        unfold runMerge at h
        by_cases hg : t.cfg.max_tombstone_prop < ts_prop t idx
        · rw [if_pos hg] at h
          exact ihD t t' idx h hτ hpre
        · rw [if_neg hg] at h
          cases h
          refine ⟨rfl, rfl, fun j _ => rfl, ?_⟩
          intro j hj
          rcases Nat.lt_or_ge idx j with hlt | hge
          · exact hpre j hlt
          · have hje : j = idx := by omega
            subst hje
            exact le_of_not_lt hg

theorem lor_two_mod_two (n : Nat) : (n ||| 2) % 2 = n % 2 := by
  have h1 : (n ||| 2).testBit 0 = (n.testBit 0 || (2 : Nat).testBit 0) :=
    Nat.testBit_lor n 2 0
  simp only [Nat.testBit_zero] at h1
  simp only [show ((2 : Nat) % 2 = 1) = False by simp, decide_False,
    Bool.or_false] at h1
  have h3 : ((n ||| 2) % 2 = 1) ↔ (n % 2 = 1) := decide_eq_decide.mp h1
  rcases Nat.mod_two_eq_zero_or_one (n ||| 2) with ha | ha <;>
    rcases Nat.mod_two_eq_zero_or_one n with hb | hb
  · rw [ha, hb]
  · exact absurd (h3.mpr hb) (by rw [ha]; omega)
  · exact absurd (h3.mp ha) (by rw [hb]; omega)
  · rw [ha, hb]

theorem set_delete_status_tombstone (r : record_t) :
    r.set_delete_status.is_tombstone = r.is_tombstone := by
  unfold record_t.set_delete_status record_t.is_tombstone
  dsimp only
  rw [lor_two_mod_two]

theorem countTs_set_delete : ∀ (run : List record_t) (idx : Nat),
    InMemRun_get_tombstone_count
        (run.set idx ((run.getD idx defaultRecord).set_delete_status))
      = InMemRun_get_tombstone_count run := by
  intro run
  induction run with
  | nil => intro idx; rfl
  | cons r rest ih =>
      intro idx
      cases idx with
      | zero =>
          simp only [List.getD_cons_zero, List.set,
            InMemRun_get_tombstone_count, List.filter_cons,
            set_delete_status_tombstone]
          cases hr : r.is_tombstone <;> simp [hr]
      | succ idx =>
          simp only [List.getD_cons_succ, List.set,
            InMemRun_get_tombstone_count, List.filter_cons]
          cases hr : r.is_tombstone <;>
            simpa [hr, InMemRun_get_tombstone_count] using ih idx

theorem InMemRun_delete_record_ts (run : List record_t) (k v : Nat) :
    InMemRun_get_tombstone_count (InMemRun_delete_record run k v).2
      = InMemRun_get_tombstone_count run := by
  unfold InMemRun_delete_record
  dsimp only
  by_cases h1 : run.length ≤ get_lower_bound run k
  · rw [if_pos h1]
  · rw [if_neg h1]
    by_cases h2 : (run.getD (scanFrom (fun r => !(r.ltKV k v)) run
        (get_lower_bound run k)) defaultRecord).matchKV k v false = true
    · rw [if_pos h2]
      exact countTs_set_delete run _
    · rw [if_neg h2]

theorem deleteInRuns_ts (k v : Nat) : ∀ runs : List (List record_t),
    ((deleteInRuns k v runs).2.map InMemRun_get_tombstone_count)
      = runs.map InMemRun_get_tombstone_count := by
  intro runs
  induction runs with
  | nil => rfl
  | cons run rest ih =>
      unfold deleteInRuns
      dsimp only
      by_cases h : (InMemRun_delete_record run k v).1 = true
      · rw [if_pos h]
        simp [InMemRun_delete_record_ts]
      · rw [if_neg h]
        simp [ih]

theorem MemoryLevel_delete_ts (lvl : MemoryLevel) (k v : Nat) :
    ((lvl.delete_record k v).2).get_tombstone_count = lvl.get_tombstone_count := by
  unfold MemoryLevel.delete_record MemoryLevel.get_tombstone_count
  dsimp only
  rw [deleteInRuns_ts]

theorem deleteInLevels_ts (k v : Nat) : ∀ (lvls : List MemoryLevel) (j : Nat),
    ((deleteInLevels k v lvls).2.getD j defaultLevel).get_tombstone_count
      = (lvls.getD j defaultLevel).get_tombstone_count := by
  intro lvls
  induction lvls with
  | nil => intro j; rfl
  | cons lvl rest ih =>
      intro j
      unfold deleteInLevels
      dsimp only
      by_cases h : (lvl.delete_record k v).1 = true
      · rw [if_pos h]
        cases j with
        | zero => simpa using MemoryLevel_delete_ts lvl k v
        | succ j => simp
      · rw [if_neg h]
        cases j with
        | zero => simp
        | succ j => simpa using ih j

theorem merge_memtable_ok (fuel : Nat) (t t' : LSMTreeState)
    (hτ : 0 ≤ t.cfg.max_tombstone_prop) (hOK : AllOK t)
    (h : merge_memtable fuel t = some t') :
    t'.cfg = t.cfg ∧ AllOK t' := by
  obtain ⟨hD, _, hE⟩ := runMerge_contract fuel
  unfold merge_memtable at h
  dsimp only at h
  by_cases hc0 : can_merge_with t 0 = true
  · rw [if_pos hc0] at h
    dsimp only at h
    cases hEnf : runMerge fuel (merge_memtable_into_l0 t) (MergeCmd.enforce 0) with
    | none =>
        rw [hEnf] at h
        simp at h
    | some t3 =>
        rw [hEnf] at h
        dsimp only at h
        cases h
        have hpre2 : OKfrom (merge_memtable_into_l0 t) 1 := by
          intro j hj
          rw [ts_prop_into_l0 t j (by omega)]
          exact hOK j
        obtain ⟨hc3, _, _, hok3⟩ := hE (merge_memtable_into_l0 t) t3 0 hEnf hτ hpre2
        exact ⟨hc3.trans rfl, fun j => hok3 j (Nat.zero_le j)⟩
  · rw [if_neg hc0] at h
    cases hDn : runMerge fuel t (MergeCmd.down 0) with
    | none =>
        rw [hDn] at h
        simp at h
    | some t1 =>
        rw [hDn] at h
        dsimp only at h
        have hpre : OKfrom t 1 := fun j _ => hOK j
        obtain ⟨hc1, _, _, hok1⟩ := hD t t1 0 hDn hτ hpre
        have hτ1 : 0 ≤ t1.cfg.max_tombstone_prop := by
          rw [hc1]
          exact hτ
        have hOK1 : AllOK t1 := fun j => hok1 j (Nat.zero_le j)
        cases hEnf : runMerge fuel (merge_memtable_into_l0 t1) (MergeCmd.enforce 0) with
        | none =>
            rw [hEnf] at h
            simp at h
        | some t3 =>
            rw [hEnf] at h
            dsimp only at h
            cases h
            have hpre2 : OKfrom (merge_memtable_into_l0 t1) 1 := by
              intro j hj
              rw [ts_prop_into_l0 t1 j (by omega)]
              exact hOK1 j
            obtain ⟨hc3, _, _, hok3⟩ :=
              hE (merge_memtable_into_l0 t1) t3 0 hEnf hτ1 hpre2
            exact ⟨(hc3.trans rfl).trans hc1, fun j => hok3 j (Nat.zero_le j)⟩

theorem applyOp_preserves (t t' : LSMTreeState) (op : LSMOp)
    (hτ : 0 ≤ t.cfg.max_tombstone_prop)
    (hOK : AllOK t) (h : applyOp t op = some t') :
    t'.cfg = t.cfg ∧ AllOK t' := by
  cases op with
  | sample lo hi k =>
      unfold applyOp at h
      cases h
      exact ⟨rfl, hOK⟩
  | delete k v =>
      unfold applyOp at h
      cases h
      unfold LSMTree_delete_record
      dsimp only
      by_cases hf : (deleteInLevels k v t.memory_levels).1 = true
      · rw [if_pos hf]
        refine ⟨rfl, ?_⟩
        intro j
        have heq : ts_prop
            { t with memory_levels := (deleteInLevels k v t.memory_levels).2 } j
              = ts_prop t j := by
          refine ts_prop_congr t _ j rfl ?_
          unfold level_tombstone_count
          dsimp only
          exact deleteInLevels_ts k v t.memory_levels j
        rw [heq]
        exact hOK j
      · rw [if_neg hf]
        exact ⟨rfl, fun j => hOK j⟩
  | append k v ts fuel =>
      unfold applyOp LSMTree_append at h
      dsimp only at h
      by_cases hfull : t.memtable.is_full = true
      · rw [if_pos hfull] at h
        cases hm : merge_memtable fuel t with
        | none =>
            rw [hm] at h
            simp at h
        | some t1 =>
            rw [hm] at h
            dsimp only [Option.map] at h
            cases h
            obtain ⟨hc1, hOK1⟩ := merge_memtable_ok fuel t t1 hτ hOK hm
            exact ⟨hc1, fun j => hOK1 j⟩
      · rw [if_neg hfull] at h
        dsimp only [Option.map] at h
        cases h
        exact ⟨rfl, fun j => hOK j⟩

theorem treeInv_of_reachable (cfg : LSMConfig) (t : LSMTreeState)
    (hτ : 0 ≤ cfg.max_tombstone_prop) (hr : TreeReachable cfg t) :
    t.cfg = cfg ∧ AllOK t := by
  induction hr with
  | init =>
      refine ⟨rfl, ?_⟩
      intro j
      rw [ts_prop_out_of_range _ j (by simp [initTree])]
      exact hτ
  | step hr hstep ih =>
      obtain ⟨hcfg, hOK⟩ := ih
      have hτt := hτ
      rw [← hcfg] at hτt
      obtain ⟨hc, hOK'⟩ := applyOp_preserves _ _ _ hτt hOK hstep
      exact ⟨hc.trans hcfg, hOK'⟩

/--
C2.  In the tiering configuration of the source (`LSM_LEVELING = false`,
`DELETE_TAGGING = true`), for every state reachable from a fresh tree by
completed top-level operations (`append`, `delete_record`, `range_sample`)
with a positive memtable capacity, a positive scale factor and a
non-negative tombstone-proportion bound, every present level's tombstone
count over its record capacity
(`memtable_cap * scale_factor^(idx+1)`) is at most `max_tombstone_prop`:
`validate_tombstone_proportion` returns true after every operation.
-/
theorem tombstone_proportion_invariant (cfg : LSMConfig) (t : LSMTreeState)
    (hcap : 0 < cfg.memtable_cap) (hs : 0 < cfg.scale_factor)
    (hτ : 0 ≤ cfg.max_tombstone_prop) (hr : TreeReachable cfg t) :
    validate_tombstone_proportion t = true := by
  obtain ⟨hcfg, hOK⟩ := treeInv_of_reachable cfg t hτ hr
  unfold validate_tombstone_proportion
  rw [List.all_eq_true]
  intro i hi
  exact decide_eq_true (hOK i)

/-- Witness for C2: capacity 2, scale factor 2, bound 1/2; the state after a
completed `delete_record(3, 4)` on a fresh tree validates. -/
theorem tombstone_proportion_invariant_witness :
    0 < (2 : Nat) ∧ 0 < (2 : Nat) ∧ (0 : ℚ) ≤ 1 / 2
    ∧ validate_tombstone_proportion
        ((applyOp (initTree ⟨2, 1, 2, 1 / 2⟩) (LSMOp.delete 3 4)).getD
          (initTree ⟨2, 1, 2, 1 / 2⟩)) = true := by
  refine ⟨by decide, by decide, by norm_num, ?_⟩
  exact tombstone_proportion_invariant ⟨2, 1, 2, 1 / 2⟩ _ (by decide) (by decide)
    (by norm_num)
    (@TreeReachable.step ⟨2, 1, 2, 1 / 2⟩ (initTree ⟨2, 1, 2, 1 / 2⟩)
      (LSMOp.delete 3 4) _ TreeReachable.init rfl)
